import Mathlib

/-!
# Sorting routines of `Code/sortFunc.h` and the method selection of `Code/main.cpp`

A shallow embedding of `bubbleSort`, `selectionSort`, `insertionSort`, of what they write to
`std::cout`, and of the loop of `main` that reads the sorting method.

* `std::vector<int>` is a `List Int`.  The routines only copy and compare elements, so the
  elements are taken as mathematical integers.
* `(*vals)[i]` is an unchecked access in C++; here a read or a write outside `0 .. size-1`
  makes the run end in `Run.ub`.
* `int num_its` is a 32-bit signed counter: `num_its++` wraps around (`incr`).
* A `for` loop whose bound and index are not written in its body has a trip count fixed on
  entry; such a loop is a structural recursion on the number of iterations left.  The
  `do … while` of `bubbleSort` has no such bound and takes a budget of passes (`fuel`).
* Output is a list of items, one per output statement.  The elapsed time written by `~Timer()`
  depends on the clock and on `float` formatting; its text is a parameter.
* `main` calls `bubbleSort(sortArray)` and `selectionSort(sortArray)` with one argument; these
  calls are parameters of the loop model.
-/

namespace SortFunc

/-! ## Machine model -/

/-- Value stored in a 32-bit signed `int` for the arithmetic result `x` (two's complement). -/
def wrapInt32 (x : Int) : Int := (x + 2147483648) % 4294967296 - 2147483648

/-- The statement `num_its++` on an `int`. -/
def incr (num_its : Int) : Int := wrapInt32 (num_its + 1)

/-- Read of `(*vals)[i]`; `none` when `i` is not an index of the vector. -/
def readAt (vals : List Int) (i : Nat) : Option Int := vals[i]?

/-- Assignment `(*vals)[i] = x`; `none` when `i` is not an index of the vector. -/
def writeAt (vals : List Int) (i : Nat) (x : Int) : Option (List Int) :=
  if i < vals.length then some (vals.set i x) else none

/-- How a call ends. -/
inductive Run (α : Type) where
  | ret (a : α) : Run α
  | ub : Run α
  | diverge : Run α
  deriving DecidableEq

/-- What a sort call leaves behind: the vector, and the value of `num_its` it prints. -/
structure Report where
  vals : List Int
  num_its : Int
  deriving DecidableEq

/-- Lift the result of the loops (`none` is an out-of-range access) to the outcome of a call. -/
def finish : Option (List Int × Int) → Run Report
  | some (vals, num_its) => Run.ret ⟨vals, num_its⟩
  | none => Run.ub

/-- The check `std::is_sorted(begin, end)`: no element is smaller than its predecessor. -/
def is_sorted : List Int → Bool
  | [] => true
  | [_] => true
  | a :: b :: rest => if b < a then false else is_sorted (b :: rest)

/-! ## bubbleSort -/

/-- Body of the `for` of `bubbleSort` at index `i` (lines 41-46). -/
def bubbleBody (vals : List Int) (num_its : Int) (i : Nat) : Option (List Int × Int) := do
  let num_its := incr num_its
  let a ← readAt vals i
  let b ← readAt vals (i + 1)
  if a > b then
    let tmp ← readAt vals (i + 1)
    let a ← readAt vals i
    let vals ← writeAt vals (i + 1) a
    let vals ← writeAt vals i tmp
    pure (vals, num_its)
  else
    pure (vals, num_its)

/-- The loop `for (int i = 0; i < n - 1; i++)` entered at index `i` with `k` iterations left. -/
def bubbleFor : Nat → Nat → List Int → Int → Option (List Int × Int)
  | 0, _, vals, num_its => some (vals, num_its)
  | k + 1, i, vals, num_its =>
    match bubbleBody vals num_its i with
    | some (vals, num_its) => bubbleFor k (i + 1) vals num_its
    | none => none

/-- One pass: the whole `for` loop, from `i = 0` while `i < n - 1`. -/
def bubblePass (vals : List Int) (n : Int) (num_its : Int) : Option (List Int × Int) :=
  bubbleFor (n - 1).toNat 0 vals num_its

/-- The vector and the counter after `j` passes in a row (the `for` loop run `j` times). -/
def bubblePasses (n : Int) : Nat → List Int → Int → Option (List Int × Int)
  | 0, vals, num_its => some (vals, num_its)
  | j + 1, vals, num_its =>
    match bubblePass vals n num_its with
    | some (vals, num_its) => bubblePasses n j vals num_its
    | none => none

/-- The `do … while (!std::is_sorted(...))` loop with a budget of `fuel` passes. -/
def bubbleLoop (n : Int) : Nat → List Int → Int → Run Report
  | 0, _, _ => Run.diverge
  | fuel + 1, vals, num_its =>
    match bubblePass vals n num_its with
    | none => Run.ub
    | some (vals, num_its) =>
      if is_sorted vals then Run.ret ⟨vals, num_its⟩ else bubbleLoop n fuel vals num_its

/-- The call `bubbleSort(vals, n)`, allowed at most `fuel` passes. -/
def bubbleSort (fuel : Nat) (vals : List Int) (n : Int) : Run Report :=
  bubbleLoop n fuel vals 0

/-! ## selectionSort -/

/-- Body of the inner `for` of `selectionSort` at index `j` (lines 60-64). -/
def selectionInnerBody (vals : List Int) (current_min : Int) (min_idx : Nat) (num_its : Int)
    (j : Nat) : Option (Int × Nat × Int) := do
  let x ← readAt vals j
  if x < current_min then
    let current_min ← readAt vals j
    pure (current_min, j, incr num_its)
  else
    pure (current_min, min_idx, incr num_its)

/-- The loop `for (int j = i+1; j < (*vals).size(); j++)` at index `j`, `k` iterations left. -/
def selectionInnerFor : Nat → Nat → List Int → Int → Nat → Int → Option (Int × Nat × Int)
  | 0, _, _, current_min, min_idx, num_its => some (current_min, min_idx, num_its)
  | k + 1, j, vals, current_min, min_idx, num_its =>
    match selectionInnerBody vals current_min min_idx num_its j with
    | some (current_min, min_idx, num_its) =>
      selectionInnerFor k (j + 1) vals current_min min_idx num_its
    | none => none

/-- Body of the outer `for` of `selectionSort` at index `i` (lines 56-68). -/
def selectionOuterBody (vals : List Int) (num_its : Int) (i : Nat) :
    Option (List Int × Int) := do
  let current_min ← readAt vals i
  let min_idx := i
  let num_its := incr num_its
  let (current_min, min_idx, num_its) ←
    selectionInnerFor (vals.length - (i + 1)) (i + 1) vals current_min min_idx num_its
  let tmp ← readAt vals i
  let vals ← writeAt vals i current_min
  let vals ← writeAt vals min_idx tmp
  pure (vals, num_its)

/-- The loop `for (int i = 0; i < n-1; i++)` entered at index `i` with `k` iterations left. -/
def selectionFor : Nat → Nat → List Int → Int → Option (List Int × Int)
  | 0, _, vals, num_its => some (vals, num_its)
  | k + 1, i, vals, num_its =>
    match selectionOuterBody vals num_its i with
    | some (vals, num_its) => selectionFor k (i + 1) vals num_its
    | none => none

/-- The call `selectionSort(vals, n)`. -/
def selectionSort (vals : List Int) (n : Int) : Run Report :=
  finish (selectionFor (n - 1).toNat 0 vals 0)

/-! ## insertionSort -/

/-- The loop `for (int i = 1; i < n; i++) { num_its++; }` with `k` iterations left: the body
only counts, the vector is not touched. -/
def insertionFor : Nat → Nat → Int → Int
  | 0, _, num_its => num_its
  | k + 1, i, num_its => insertionFor k (i + 1) (incr num_its)

/-- The call `insertionSort(vals, n)`. -/
def insertionSort (vals : List Int) (n : Int) : Run Report :=
  Run.ret ⟨vals, insertionFor (n - 1).toNat 1 0⟩

/-! ## Output of the sort calls -/

/-- What the program writes to `std::cout`, one item per output statement. -/
inductive Line where
  | steps (name : String) (count : Int) : Line
  | elapsed (ms : String) : Line
  | text (s : String) : Line
  deriving DecidableEq

/-- The characters of an item: `"<name> Sort: <count> iterations"` for the step count,
`"Sorted in <ms>ms."` for the elapsed time. -/
def Line.render : Line → String
  | Line.steps name count => name ++ " Sort: " ++ toString count ++ " iterations"
  | Line.elapsed ms => "Sorted in " ++ ms ++ "ms."
  | Line.text s => s

/-- The destructor `~Timer()`: it writes the elapsed time.  The clock readings and the
formatting of the `float` are not modelled; `ms` is the text `std::cout << ms` produces. -/
def Timer.destructor (ms : String) : List Line := [Line.elapsed ms]

/-- The end of a sort call: the loops write nothing, a call that leaves its loops writes the
step count (the last statement of the body) and then, at the closing brace, the local `timer`
is destroyed. -/
def report (name : String) (ms : String) : Run Report → Run (Report × List Line)
  | Run.ret r => Run.ret (r, [Line.steps name r.num_its] ++ Timer.destructor ms)
  | Run.ub => Run.ub
  | Run.diverge => Run.diverge

/-- The call `bubbleSort(vals, n)` with what it writes. -/
def bubbleSortOutput (fuel : Nat) (vals : List Int) (n : Int) (ms : String) :
    Run (Report × List Line) :=
  report "Bubble" ms (bubbleSort fuel vals n)

/-- The call `selectionSort(vals, n)` with what it writes. -/
def selectionSortOutput (vals : List Int) (n : Int) (ms : String) : Run (Report × List Line) :=
  report "Selection" ms (selectionSort vals n)

/-- The call `insertionSort(vals, n)` with what it writes. -/
def insertionSortOutput (vals : List Int) (n : Int) (ms : String) : Run (Report × List Line) :=
  report "Insertion" ms (insertionSort vals n)

/-! ## The method-selection loop of `main` -/

/-- The array `sortMethods` of `main.cpp`. -/
def sortMethods : List String := ["Bubble", "Selection", "Insertion", "Merge", "Quick"]

/-- The `std::for_each` with `std::tolower` over the characters of the token. -/
def toLowerCase (s : String) : String := String.mk (s.data.map Char.toLower)

/-- State of `main` around the loop: the vector, the loop flag, what has been written. -/
structure Selector where
  sortArray : List Int
  incorrectSortMethod : Bool
  out : List Line
  deriving DecidableEq

/-- One iteration of the `do … while (incorrectSortMethod)` of `main` (lines 29-49) on the token
read from `std::cin`.  `main` calls `bubbleSort(sortArray)` and `selectionSort(sortArray)` with
the vector alone; these one-argument routines are parameters, each returning the vector it
leaves and what it writes. -/
def selectorBody (bubbleCall selectionCall : List Int → Run (List Int × List Line))
    (st : Selector) (token : String) : Run Selector :=
  let out := st.out ++ [Line.text "Sorting Method: "]
  let userSortMethod := toLowerCase token
  if userSortMethod = "bubble" then
    match bubbleCall st.sortArray with
    | Run.ret (vals, written) => Run.ret ⟨vals, false, out ++ written⟩
    | Run.ub => Run.ub
    | Run.diverge => Run.diverge
  else if userSortMethod = "selection" then
    match selectionCall st.sortArray with
    | Run.ret (vals, written) => Run.ret ⟨vals, false, out ++ written⟩
    | Run.ub => Run.ub
    | Run.diverge => Run.diverge
  else if userSortMethod = "help" then
    Run.ret ⟨st.sortArray, st.incorrectSortMethod, out ++ sortMethods.map Line.text⟩
  else
    Run.ret ⟨st.sortArray, st.incorrectSortMethod,
      out ++ [Line.text "Please enter valid sorting method (enter HELP for list)"]⟩

/-- The loop of `main` over the tokens that `std::cin` delivers: it goes on while
`incorrectSortMethod` holds; when the input is used up the loop is left waiting. -/
def selectorLoop (bubbleCall selectionCall : List Int → Run (List Int × List Line)) :
    List String → Selector → Run Selector
  | [], _ => Run.diverge
  | token :: rest, st =>
    match selectorBody bubbleCall selectionCall st token with
    | Run.ret st' =>
      if st'.incorrectSortMethod then selectorLoop bubbleCall selectionCall rest st'
      else Run.ret st'
    | Run.ub => Run.ub
    | Run.diverge => Run.diverge

/-- The one-argument call `bubbleSort(sortArray)` of `main` read as the routine of
`sortFunc.h` on the whole vector. -/
def bubbleCallWhole (fuel : Nat) (ms : String) (vals : List Int) : Run (List Int × List Line) :=
  match bubbleSortOutput fuel vals vals.length ms with
  | Run.ret (r, written) => Run.ret (r.vals, written)
  | Run.ub => Run.ub
  | Run.diverge => Run.diverge

/-- The one-argument call `selectionSort(sortArray)` of `main` read as the routine of
`sortFunc.h` on the whole vector. -/
def selectionCallWhole (ms : String) (vals : List Int) : Run (List Int × List Line) :=
  match selectionSortOutput vals vals.length ms with
  | Run.ret (r, written) => Run.ret (r.vals, written)
  | Run.ub => Run.ub
  | Run.diverge => Run.diverge

/-! ## Proof devices -/

/-- One bubble pass seen as a function on lists: the element `a` is carried to the right
through `t`, exchanged with every smaller neighbour it meets. -/
def carry (a : Int) : List Int → List Int
  | [] => [a]
  | b :: t => if a > b then b :: carry a t else a :: carry b t

/-- One bubble pass over a whole list. -/
def bubble : List Int → List Int
  | [] => []
  | a :: t => carry a t

/-- The strictly decreasing input `[n, n-1, …, 1]`. -/
def descending : Nat → List Int
  | 0 => []
  | n + 1 => ((n + 1 : Nat) : Int) :: descending n

/-- Invariant of the outer loop of `selectionSort`: places below `i` hold a non-decreasing run
that every later place dominates. -/
def Ordered (i : Nat) (v : List Int) : Prop :=
  ∀ a b x y, a < b → a < i → v[a]? = some x → v[b]? = some y → x ≤ y

/-! ## Counter arithmetic -/

theorem wrapInt32_eq_self {x : Int} (h1 : -2147483648 ≤ x) (h2 : x < 2147483648) :
    wrapInt32 x = x := by
  unfold wrapInt32
  rw [Int.emod_eq_of_lt (by omega) (by omega)]
  omega

theorem wrapInt32_wrap_add (x y : Int) : wrapInt32 (wrapInt32 x + y) = wrapInt32 (x + y) := by
  unfold wrapInt32
  omega

theorem wrapInt32_range (x : Int) : -2147483648 ≤ wrapInt32 x ∧ wrapInt32 x < 2147483648 := by
  unfold wrapInt32
  omega

theorem incr_wrapInt32 (x : Int) : incr (wrapInt32 x) = wrapInt32 (x + 1) := by
  unfold incr
  exact wrapInt32_wrap_add x 1

theorem incr_iterate (k : Nat) (x : Int) :
    incr^[k] (wrapInt32 x) = wrapInt32 (x + k) := by
  induction k generalizing x with
  | zero => simp
  | succ k ih =>
    rw [Function.iterate_succ_apply, incr_wrapInt32, ih]
    congr 1
    push_cast
    ring

/-! ## The sortedness check -/

theorem is_sorted_iff (l : List Int) : is_sorted l = true ↔ List.Sorted (· ≤ ·) l := by
  induction l with
  | nil => simp [is_sorted]
  | cons a t ih =>
    cases t with
    | nil => simp [is_sorted]
    | cons b rest =>
      rw [is_sorted]
      by_cases h : b < a
      · simp only [h, if_true]
        constructor
        · intro h'; cases h'
        · intro hs
          have := List.rel_of_sorted_cons hs b (List.mem_cons_self _ _)
          omega
      · simp only [h, if_false]
        rw [ih]
        constructor
        · intro hs
          exact List.Sorted.cons (not_lt.mp h) hs
        · intro hs
          exact List.Sorted.of_cons hs

/-! ## One pass of bubbleSort -/

theorem bubbleBody_eq (pre : List Int) (a b : Int) (t : List Int) (c : Int) :
    bubbleBody (pre ++ a :: b :: t) c pre.length =
      some (if a > b then pre ++ b :: a :: t else pre ++ a :: b :: t, incr c) := by
  have h1 : readAt (pre ++ a :: b :: t) pre.length = some a := by
    rw [readAt, List.getElem?_append_right (le_refl _)]
    simp
  have h2 : readAt (pre ++ a :: b :: t) (pre.length + 1) = some b := by
    rw [readAt, List.getElem?_append_right (Nat.le_succ _)]
    simp
  unfold bubbleBody
  by_cases h : a > b
  · simp [h1, h2, h, writeAt, List.set_append]
  · simp [h1, h2, h]

theorem bubbleFor_eq (t : List Int) : ∀ (pre : List Int) (a c : Int),
    bubbleFor t.length pre.length (pre ++ a :: t) c =
      some (pre ++ carry a t, incr^[t.length] c) := by
  induction t with
  | nil => intro pre a c; simp [bubbleFor, carry]
  | cons b t ih =>
    intro pre a c
    rw [List.length_cons, bubbleFor, bubbleBody_eq]
    by_cases h : a > b
    · have := ih (pre ++ [b]) a (incr c)
      simp only [List.length_append, List.length_singleton, List.append_assoc,
        List.singleton_append] at this
      simp only [h, if_true, this, carry, Function.iterate_succ_apply]
    · have := ih (pre ++ [a]) b (incr c)
      simp only [List.length_append, List.length_singleton, List.append_assoc,
        List.singleton_append] at this
      simp only [h, if_false, this, carry, Function.iterate_succ_apply]

theorem bubblePass_eq (vals : List Int) (c : Int) :
    bubblePass vals vals.length c = some (bubble vals, incr^[vals.length - 1] c) := by
  cases vals with
  | nil => simp [bubblePass, bubbleFor, bubble]
  | cons a t =>
    have := bubbleFor_eq t [] a c
    simp only [List.length_nil, List.nil_append] at this
    simp [bubblePass, bubble, this]

/-! ## The pass as a function on lists -/

theorem carry_length (t : List Int) : ∀ a : Int, (carry a t).length = t.length + 1 := by
  induction t with
  | nil => intro a; simp [carry]
  | cons b t ih =>
    intro a
    by_cases h : a > b <;> simp [carry, h, ih]

theorem carry_perm (t : List Int) : ∀ a : Int, List.Perm (carry a t) (a :: t) := by
  induction t with
  | nil => intro a; simp [carry]
  | cons b t ih =>
    intro a
    by_cases h : a > b
    · simp only [carry, h, if_true]
      exact ((ih a).cons b).trans (List.Perm.swap a b t)
    · simp only [carry, h, if_false]
      exact (ih b).cons a

theorem bubble_length (l : List Int) : (bubble l).length = l.length := by
  cases l with
  | nil => rfl
  | cons a t => simp [bubble, carry_length]

theorem bubble_perm (l : List Int) : List.Perm (bubble l) l := by
  cases l with
  | nil => exact List.Perm.refl _
  | cons a t => exact carry_perm t a

/-- The carried element ends the pass in last position and is a maximum. -/
theorem carry_last (t : List Int) : ∀ a : Int,
    ∃ q m, carry a t = q ++ [m] ∧ ∀ x ∈ q, x ≤ m := by
  induction t with
  | nil => intro a; exact ⟨[], a, by simp [carry], by simp⟩
  | cons b t ih =>
    intro a
    by_cases h : a > b
    · obtain ⟨q, m, hq, hm⟩ := ih a
      refine ⟨b :: q, m, by simp [carry, h, hq], ?_⟩
      intro x hx
      rcases List.mem_cons.mp hx with rfl | hx
      · have ha : a ∈ q ++ [m] := hq ▸ (carry_perm t a).mem_iff.mpr (List.mem_cons_self _ _)
        rcases List.mem_append.mp ha with ha | ha
        · have := hm a ha; omega
        · simp at ha; omega
      · exact hm x hx
    · obtain ⟨q, m, hq, hm⟩ := ih b
      refine ⟨a :: q, m, by simp [carry, h, hq], ?_⟩
      intro x hx
      rcases List.mem_cons.mp hx with rfl | hx
      · have hb : b ∈ q ++ [m] := hq ▸ (carry_perm t b).mem_iff.mpr (List.mem_cons_self _ _)
        rcases List.mem_append.mp hb with hb | hb
        · have := hm b hb; omega
        · simp at hb; omega
      · exact hm x hx

/-- A pass over a non-decreasing list exchanges nothing. -/
theorem carry_sorted (s : List Int) : ∀ a : Int,
    List.Sorted (· ≤ ·) (a :: s) → carry a s = a :: s := by
  induction s with
  | nil => intro a _; rfl
  | cons b s ih =>
    intro a hs
    have hab : a ≤ b := List.rel_of_sorted_cons hs b (List.mem_cons_self _ _)
    have h : ¬ a > b := by omega
    simp [carry, h, ih b (List.Sorted.of_cons hs)]

theorem bubble_sorted (l : List Int) (hs : List.Sorted (· ≤ ·) l) : bubble l = l := by
  cases l with
  | nil => rfl
  | cons a t => exact carry_sorted t a hs

/-- A pass leaves alone a non-decreasing tail that dominates the rest. -/
theorem carry_append (s : List Int) (hs : List.Sorted (· ≤ ·) s) (t : List Int) :
    ∀ a : Int, (∀ x ∈ a :: t, ∀ y ∈ s, x ≤ y) → carry a (t ++ s) = carry a t ++ s := by
  induction t with
  | nil =>
    intro a hle
    have : List.Sorted (· ≤ ·) (a :: s) :=
      List.sorted_cons.mpr ⟨fun y hy => hle a (List.mem_cons_self _ _) y hy, hs⟩
    simp [carry, carry_sorted s a this]
  | cons b t ih =>
    intro a hle
    have ha : ∀ x ∈ a :: t, ∀ y ∈ s, x ≤ y := by
      intro x hx y hy
      rcases List.mem_cons.mp hx with rfl | hx
      · exact hle x (List.mem_cons_self _ _) y hy
      · exact hle x (List.mem_cons_of_mem _ (List.mem_cons_of_mem _ hx)) y hy
    have hb : ∀ x ∈ b :: t, ∀ y ∈ s, x ≤ y := by
      intro x hx y hy
      exact hle x (List.mem_cons_of_mem _ hx) y hy
    by_cases h : a > b
    · simp [carry, h, ih a ha]
    · simp [carry, h, ih b hb]

theorem bubble_iterate_length (k : Nat) (l : List Int) : (bubble^[k] l).length = l.length := by
  induction k with
  | zero => rfl
  | succ k ih => rw [Function.iterate_succ_apply', bubble_length, ih]

theorem bubble_iterate_perm (k : Nat) (l : List Int) : List.Perm (bubble^[k] l) l := by
  induction k with
  | zero => exact List.Perm.refl _
  | succ k ih =>
    rw [Function.iterate_succ_apply']
    exact (bubble_perm _).trans ih

/-- After `k` passes the last `k` places hold a non-decreasing run that dominates the rest. -/
theorem bubble_iterate_settled (l : List Int) : ∀ k : Nat, k ≤ l.length →
    ∃ p s, bubble^[k] l = p ++ s ∧ s.length = k ∧ List.Sorted (· ≤ ·) s ∧
      ∀ x ∈ p, ∀ y ∈ s, x ≤ y := by
  intro k
  induction k with
  | zero => intro _; exact ⟨l, [], by simp, rfl, List.sorted_nil, by simp⟩
  | succ k ih =>
    intro hk
    obtain ⟨p, s, hps, hlen, hs, hle⟩ := ih (by omega)
    have hl := bubble_iterate_length k l
    rw [hps, List.length_append] at hl
    cases p with
    | nil => simp at hl; omega
    | cons a t =>
      obtain ⟨q, m, hq, hm⟩ := carry_last t a
      have hperm : List.Perm (q ++ [m]) (a :: t) := hq ▸ carry_perm t a
      refine ⟨q, m :: s, ?_, by simp [hlen], ?_, ?_⟩
      · rw [Function.iterate_succ_apply', hps]
        show carry a (t ++ s) = q ++ m :: s
        rw [carry_append s hs t a hle, hq]
        simp
      · refine List.sorted_cons.mpr ⟨fun y hy => ?_, hs⟩
        exact hle m (hperm.mem_iff.mp (by simp)) y hy
      · intro x hx y hy
        rcases List.mem_cons.mp hy with rfl | hy
        · exact hm x hx
        · exact hle x (hperm.mem_iff.mp (by simp [hx])) y hy

/-- After `length - 1` passes the list is in non-decreasing order. -/
theorem bubble_iterate_sorted (l : List Int) :
    List.Sorted (· ≤ ·) (bubble^[l.length - 1] l) := by
  obtain ⟨p, s, hps, hlen, hs, hle⟩ := bubble_iterate_settled l (l.length - 1) (by omega)
  have hl := bubble_iterate_length (l.length - 1) l
  rw [hps, List.length_append] at hl
  rw [hps]
  cases p with
  | nil => simpa using hs
  | cons a t =>
    cases t with
    | nil =>
      exact List.sorted_cons.mpr ⟨fun y hy => hle a (List.mem_cons_self _ _) y hy, hs⟩
    | cons b t => simp at hl; omega

/-! ## The do-while loop of bubbleSort -/

theorem bubbleLoop_step (fuel : Nat) (vals : List Int) (c : Int) :
    bubbleLoop vals.length (fuel + 1) vals c =
      if is_sorted (bubble vals) then Run.ret ⟨bubble vals, incr^[vals.length - 1] c⟩
      else bubbleLoop vals.length fuel (bubble vals) (incr^[vals.length - 1] c) := by
  rw [bubbleLoop, bubblePass_eq]

/-- The loop returns after pass `k + 1` when that pass is the first to leave the vector in
non-decreasing order. -/
theorem bubbleLoop_ret : ∀ (k fuel : Nat) (vals : List Int) (c : Int), k < fuel →
    (∀ j, 1 ≤ j → j ≤ k → ¬ List.Sorted (· ≤ ·) (bubble^[j] vals)) →
    List.Sorted (· ≤ ·) (bubble^[k + 1] vals) →
    bubbleLoop vals.length fuel vals c =
      Run.ret ⟨bubble^[k + 1] vals, incr^[(k + 1) * (vals.length - 1)] c⟩ := by
  intro k
  induction k with
  | zero =>
    intro fuel vals c hf _ hs
    obtain ⟨f, rfl⟩ : ∃ f, fuel = f + 1 := ⟨fuel - 1, by omega⟩
    rw [bubbleLoop_step]
    have : is_sorted (bubble vals) = true := (is_sorted_iff _).mpr (by simpa using hs)
    simp [this]
  | succ k ih =>
    intro fuel vals c hf hns hs
    obtain ⟨f, rfl⟩ : ∃ f, fuel = f + 1 := ⟨fuel - 1, by omega⟩
    rw [bubbleLoop_step]
    have h1 : ¬ is_sorted (bubble vals) = true := by
      rw [is_sorted_iff]
      simpa using hns 1 (le_refl _) (by omega)
    have hlen := bubble_length vals
    have := ih f (bubble vals) (incr^[vals.length - 1] c) (by omega)
      (fun j hj1 hjk => by
        have := hns (j + 1) (by omega) (by omega)
        rwa [Function.iterate_succ_apply] at this)
      (by rwa [Function.iterate_succ_apply] at hs)
    rw [hlen] at this
    simp only [h1, if_false, this, Bool.false_eq_true]
    rw [← Function.iterate_succ_apply, ← Function.iterate_add_apply]
    congr 3
    ring

/-- The budget runs out when none of the passes it allows leaves the vector sorted. -/
theorem bubbleLoop_diverge : ∀ (fuel : Nat) (vals : List Int) (c : Int),
    (∀ j, 1 ≤ j → j ≤ fuel → ¬ List.Sorted (· ≤ ·) (bubble^[j] vals)) →
    bubbleLoop vals.length fuel vals c = Run.diverge := by
  intro fuel
  induction fuel with
  | zero => intro vals c _; rfl
  | succ f ih =>
    intro vals c hns
    rw [bubbleLoop_step]
    have h1 : ¬ is_sorted (bubble vals) = true := by
      rw [is_sorted_iff]
      simpa using hns 1 (le_refl _) (by omega)
    have hlen := bubble_length vals
    have := ih (bubble vals) (incr^[vals.length - 1] c)
      (fun j hj1 hjk => by
        have := hns (j + 1) (by omega) (by omega)
        rwa [Function.iterate_succ_apply] at this)
    rw [hlen] at this
    simp only [h1, if_false, this, Bool.false_eq_true]

/-- After `max 1 (length - 1)` passes the vector is in non-decreasing order. -/
theorem bubble_bound_sorted (l : List Int) :
    List.Sorted (· ≤ ·) (bubble^[max 1 (l.length - 1)] l) := by
  rcases Nat.lt_or_ge l.length 2 with h | h
  · have h1 : max 1 (l.length - 1) = 1 := by omega
    rw [h1]
    have hl : (bubble^[1] l).length = l.length := bubble_iterate_length 1 l
    match bubble^[1] l, hl with
    | [], _ => exact List.sorted_nil
    | [x], _ => exact List.sorted_singleton x
    | _ :: _ :: _, hl => simp at hl; omega
  · have h1 : max 1 (l.length - 1) = l.length - 1 := by omega
    rw [h1]
    exact bubble_iterate_sorted l

/-- Some pass among the first `max 1 (length - 1)` is the first to leave the vector sorted. -/
theorem bubble_first_sorted (l : List Int) :
    ∃ k, 1 ≤ k ∧ k ≤ max 1 (l.length - 1) ∧ List.Sorted (· ≤ ·) (bubble^[k] l) ∧
      ∀ j, 1 ≤ j → j < k → ¬ List.Sorted (· ≤ ·) (bubble^[j] l) := by
  classical
  have hK : List.Sorted (· ≤ ·) (bubble^[max 1 (l.length - 1) - 1 + 1] l) := by
    have h1 : max 1 (l.length - 1) - 1 + 1 = max 1 (l.length - 1) := by omega
    rw [h1]
    exact bubble_bound_sorted l
  have hex : ∃ j, List.Sorted (· ≤ ·) (bubble^[j + 1] l) := ⟨_, hK⟩
  refine ⟨Nat.find hex + 1, by omega, ?_, Nat.find_spec hex, ?_⟩
  · have : Nat.find hex ≤ max 1 (l.length - 1) - 1 := Nat.find_min' hex hK
    omega
  · intro j hj1 hjk
    obtain ⟨i, rfl⟩ : ∃ i, j = i + 1 := ⟨j - 1, by omega⟩
    exact Nat.find_min hex (by omega)

/-- The run of `bubbleSort` with `n` the length of the vector: it makes `k` passes, with
`1 ≤ k ≤ max 1 (length - 1)`, does not return within `k - 1` passes, and returns the `k`-th
iterate of the pass with the counter at `k * (length - 1)` (as an `int`). -/
theorem bubbleSort_run (l : List Int) :
    ∃ k, 1 ≤ k ∧ k ≤ max 1 (l.length - 1) ∧
      List.Sorted (· ≤ ·) (bubble^[k] l) ∧
      bubbleSort (k - 1) l l.length = Run.diverge ∧
      ∀ fuel, k ≤ fuel → bubbleSort fuel l l.length =
        Run.ret ⟨bubble^[k] l, wrapInt32 ((k * (l.length - 1) : Nat) : Int)⟩ := by
  obtain ⟨k, hk1, hk2, hs, hmin⟩ := bubble_first_sorted l
  obtain ⟨i, rfl⟩ : ∃ i, k = i + 1 := ⟨k - 1, by omega⟩
  refine ⟨i + 1, hk1, hk2, hs, ?_, ?_⟩
  · exact bubbleLoop_diverge i l 0 (fun j hj1 hji => hmin j hj1 (by omega))
  · intro fuel hf
    have := bubbleLoop_ret i fuel l 0 (by omega) (fun j hj1 hji => hmin j hj1 (by omega)) hs
    have h0 : (0 : Int) = wrapInt32 0 := by decide
    rw [bubbleSort, this]
    conv_lhs => rw [h0]
    rw [incr_iterate]
    simp

/-! ## The inner loop of selectionSort -/

theorem selectionInnerBody_eq (vals : List Int) (cm : Int) (mi : Nat) (c : Int) (j : Nat)
    (x : Int) (hx : vals[j]? = some x) :
    selectionInnerBody vals cm mi c j =
      some (if x < cm then (x, j, incr c) else (cm, mi, incr c)) := by
  unfold selectionInnerBody
  by_cases h : x < cm <;> simp [readAt, hx, h]

/-- The scan from `j` to the end keeps in `(current_min, min_idx)` a smallest element of the
part seen so far and a place where it stands; it counts one step per index. -/
theorem selectionInnerFor_spec : ∀ (k j : Nat) (vals : List Int) (cm : Int) (mi : Nat) (c : Int),
    j + k = vals.length → vals[mi]? = some cm → mi < j →
    ∃ cm' mi', selectionInnerFor k j vals cm mi c = some (cm', mi', incr^[k] c) ∧
      vals[mi']? = some cm' ∧ mi ≤ mi' ∧ mi' < vals.length ∧ cm' ≤ cm ∧
      (∀ t x, j ≤ t → vals[t]? = some x → cm' ≤ x) ∧
      ((∀ t x, j ≤ t → vals[t]? = some x → cm ≤ x) → mi' = mi) := by
  intro k
  induction k with
  | zero =>
    intro j vals cm mi c hjk hmi hlt
    refine ⟨cm, mi, rfl, hmi, le_refl _, ?_, le_refl _, ?_, fun _ => rfl⟩
    · exact (List.getElem?_eq_some.mp hmi).1
    · intro t x hjt ht
      have := (List.getElem?_eq_some.mp ht).1
      omega
  | succ k ih =>
    intro j vals cm mi c hjk hmi hlt
    have hj : j < vals.length := by omega
    have hx : vals[j]? = some vals[j] := List.getElem?_eq_getElem hj
    rw [selectionInnerFor, selectionInnerBody_eq vals cm mi c j _ hx]
    by_cases h : vals[j] < cm
    · simp only [h, if_true]
      obtain ⟨cm', mi', hrun, hget, hle, hlt', hcm, hmin, _⟩ :=
        ih (j + 1) vals vals[j] j (incr c) (by omega) hx (by omega)
      refine ⟨cm', mi', ?_, hget, by omega, hlt', by omega, ?_, ?_⟩
      · rw [hrun, Function.iterate_succ_apply]
      · intro t x hjt ht
        rcases Nat.eq_or_lt_of_le hjt with rfl | hjt'
        · rw [hx] at ht
          cases ht
          exact hcm
        · exact hmin t x hjt' ht
      · intro hall
        have := hall j vals[j] (le_refl _) hx
        omega
    · simp only [h, if_false]
      obtain ⟨cm', mi', hrun, hget, hle, hlt', hcm, hmin, hkeep⟩ :=
        ih (j + 1) vals cm mi (incr c) (by omega) hmi (by omega)
      refine ⟨cm', mi', ?_, hget, hle, hlt', hcm, ?_, ?_⟩
      · rw [hrun, Function.iterate_succ_apply]
      · intro t x hjt ht
        rcases Nat.eq_or_lt_of_le hjt with rfl | hjt'
        · rw [hx] at ht
          cases ht
          omega
        · exact hmin t x hjt' ht
      · intro hall
        exact hkeep (fun t x hjt ht => hall t x (by omega) ht)

/-! ## Exchanging two places -/

theorem set_cons_perm : ∀ (t : List Int) (j : Nat) (m a : Int), t[j]? = some m →
    List.Perm (m :: t.set j a) (a :: t) := by
  intro t
  induction t with
  | nil => intro j m a h; simp at h
  | cons y t ih =>
    intro j m a h
    cases j with
    | zero =>
      simp at h
      subst h
      simpa using List.Perm.swap a y t
    | succ j =>
      simp at h
      simp only [List.set_cons_succ]
      exact (List.Perm.swap y m _).trans (((ih j m a h).cons y).trans (List.Perm.swap a y t))

/-- Writing at two places each other's value rearranges the vector. -/
theorem set_set_perm_of_lt : ∀ (l : List Int) (i j : Nat) (a m : Int),
    l[i]? = some a → l[j]? = some m → i < j → List.Perm ((l.set i m).set j a) l := by
  intro l
  induction l with
  | nil => intro i j a m h; simp at h
  | cons x t ih =>
    intro i j a m hi hj hij
    obtain ⟨j, rfl⟩ : ∃ j', j = j' + 1 := ⟨j - 1, by omega⟩
    cases i with
    | zero =>
      simp at hi hj
      subst hi
      simpa using set_cons_perm t j m x hj
    | succ i =>
      simp at hi hj
      simp only [List.set_cons_succ]
      exact (ih i j a m hi hj (by omega)).cons x

/-! ## The outer loop of selectionSort -/

/-- One outer iteration at an index `i` of the vector: a smallest element `m` of the places
from `i` on, found at `mi`, is exchanged with the head `a` of that part. -/
theorem selectionOuterBody_spec (vals : List Int) (c : Int) (i : Nat) (hi : i < vals.length) :
    ∃ (m : Int) (mi : Nat) (a : Int), i ≤ mi ∧ mi < vals.length ∧ vals[i]? = some a ∧
      vals[mi]? = some m ∧ (∀ t x, i ≤ t → vals[t]? = some x → m ≤ x) ∧
      ((∀ t x, i < t → vals[t]? = some x → a ≤ x) → mi = i) ∧
      selectionOuterBody vals c i =
        some ((vals.set i m).set mi a, incr^[vals.length - i] c) := by
  have ha : vals[i]? = some vals[i] := List.getElem?_eq_getElem hi
  obtain ⟨cm', mi', hrun, hget, hle, hlt, hcm, hmin, hkeep⟩ :=
    selectionInnerFor_spec (vals.length - (i + 1)) (i + 1) vals vals[i] i (incr c)
      (by omega) ha (by omega)
  refine ⟨cm', mi', vals[i], hle, hlt, ha, hget, ?_, ?_, ?_⟩
  · intro t x hit ht
    rcases Nat.eq_or_lt_of_le hit with rfl | hit'
    · rw [ha] at ht
      cases ht
      exact hcm
    · exact hmin t x hit' ht
  · intro hall
    exact hkeep (fun t x hjt ht => hall t x (by omega) ht)
  · unfold selectionOuterBody
    have hcount : vals.length - i = (vals.length - (i + 1)) + 1 := by omega
    simp [readAt, ha, hrun, writeAt, hi, hlt, hcount, Function.iterate_succ_apply]

theorem set_set_same (vals : List Int) (i : Nat) (m a : Int) (ha : vals[i]? = some a) :
    (vals.set i m).set i a = vals := by
  apply List.ext_getElem?
  intro t
  rw [List.set_set]
  by_cases h : i = t
  · subst h
    rw [List.getElem?_set_self (List.getElem?_eq_some.mp ha).1, ha]
  · rw [List.getElem?_set_ne h]

/-- Effect of one outer iteration on the vector. -/
theorem selectionOuterBody_effect (vals : List Int) (c : Int) (i : Nat) (hi : i < vals.length) :
    ∃ (vals' : List Int) (m : Int),
      selectionOuterBody vals c i = some (vals', incr^[vals.length - i] c) ∧
      List.Perm vals' vals ∧
      (∀ t, t < i → vals'[t]? = vals[t]?) ∧
      vals'[i]? = some m ∧
      (∀ t x, i ≤ t → vals[t]? = some x → m ≤ x) ∧
      (∀ t y, i ≤ t → vals'[t]? = some y → ∃ u, i ≤ u ∧ vals[u]? = some y) ∧
      ((∀ t x, i < t → vals[t]? = some x → ∀ a, vals[i]? = some a → a ≤ x) → vals' = vals) := by
  obtain ⟨m, mi, a, hle, hlt, ha, hm, hmin, hkeep, hrun⟩ := selectionOuterBody_spec vals c i hi
  rcases Nat.eq_or_lt_of_le hle with heq | hlt'
  · subst heq
    have hma : m = a := by
      rw [ha] at hm
      cases hm
      rfl
    subst hma
    have hsame := set_set_same vals i m m ha
    rw [hsame] at hrun
    exact ⟨vals, m, hrun, List.Perm.refl _, fun _ _ => rfl, ha, hmin,
      fun t y hit ht => ⟨t, hit, ht⟩, fun _ => rfl⟩
  · refine ⟨(vals.set i m).set mi a, m, hrun, set_set_perm_of_lt vals i mi a m ha hm hlt', ?_, ?_,
      hmin, ?_, ?_⟩
    · intro t ht
      rw [List.getElem?_set_ne (by omega), List.getElem?_set_ne (by omega)]
    · rw [List.getElem?_set_ne (by omega), List.getElem?_set_self hi]
    · intro t y hit ht
      by_cases h1 : mi = t
      · subst h1
        rw [List.getElem?_set_self (by simpa using hlt)] at ht
        cases ht
        exact ⟨i, le_refl _, ha⟩
      · rw [List.getElem?_set_ne h1] at ht
        by_cases h2 : i = t
        · subst h2
          rw [List.getElem?_set_self hi] at ht
          cases ht
          exact ⟨mi, hle, hm⟩
        · rw [List.getElem?_set_ne h2] at ht
          exact ⟨t, hit, ht⟩
    · intro hall
      have := hkeep (fun t x hit ht => hall t x hit ht a ha)
      omega

theorem Ordered.step {i : Nat} {vals vals' : List Int} {m : Int} (hord : Ordered i vals)
    (hpre : ∀ t, t < i → vals'[t]? = vals[t]?)
    (hm : vals'[i]? = some m)
    (hmin : ∀ t x, i ≤ t → vals[t]? = some x → m ≤ x)
    (hfrom : ∀ t y, i ≤ t → vals'[t]? = some y → ∃ u, i ≤ u ∧ vals[u]? = some y) :
    Ordered (i + 1) vals' := by
  intro a b x y hab hai hx hy
  rcases Nat.lt_or_ge a i with h | h
  · rw [hpre a h] at hx
    rcases Nat.lt_or_ge b i with hb | hb
    · rw [hpre b hb] at hy
      exact hord a b x y hab h hx hy
    · obtain ⟨u, hiu, hu⟩ := hfrom b y hb hy
      exact hord a u x y (by omega) h hx hu
  · have hai' : a = i := by omega
    subst hai'
    rw [hm] at hx
    cases hx
    obtain ⟨u, hiu, hu⟩ := hfrom b y (by omega) hy
    exact hmin u y hiu hu

theorem Ordered.sorted {v : List Int} (h : Ordered (v.length - 1) v) :
    List.Sorted (· ≤ ·) v := by
  rw [List.Sorted, List.pairwise_iff_getElem]
  intro a b ha hb hab
  exact h a b v[a] v[b] hab (by omega) (List.getElem?_eq_getElem ha) (List.getElem?_eq_getElem hb)

theorem sorted_head_le {v : List Int} (hs : List.Sorted (· ≤ ·) v) (i t : Nat) (a x : Int)
    (hit : i < t) (ha : v[i]? = some a) (hx : v[t]? = some x) : a ≤ x := by
  rw [List.Sorted, List.pairwise_iff_getElem] at hs
  obtain ⟨hi, rfl⟩ := List.getElem?_eq_some.mp ha
  obtain ⟨ht, rfl⟩ := List.getElem?_eq_some.mp hx
  exact hs i t hi ht hit

/-- The outer loop run for `k` iterations from index `i`. -/
theorem selectionFor_spec : ∀ (k i : Nat) (vals : List Int) (c : Int),
    i + k ≤ vals.length → Ordered i vals →
    ∃ (vals' : List Int) (s : Nat), selectionFor k i vals c = some (vals', incr^[s] c) ∧
      List.Perm vals' vals ∧ Ordered (i + k) vals' ∧
      2 * s + 2 * k * i + k * k = 2 * k * vals.length + k ∧
      (List.Sorted (· ≤ ·) vals → vals' = vals) := by
  intro k
  induction k with
  | zero =>
    intro i vals c _ hord
    exact ⟨vals, 0, rfl, List.Perm.refl _, hord, by simp, fun _ => rfl⟩
  | succ k ih =>
    intro i vals c hik hord
    have hi : i < vals.length := by omega
    obtain ⟨v1, m, hrun, hperm, hpre, hm, hmin, hfrom, hkeep⟩ :=
      selectionOuterBody_effect vals c i hi
    have hlen : v1.length = vals.length := hperm.length_eq
    obtain ⟨v2, s, hrun2, hperm2, hord2, hs, hkeep2⟩ :=
      ih (i + 1) v1 (incr^[vals.length - i] c) (by omega)
        (Ordered.step hord hpre hm hmin hfrom)
    refine ⟨v2, s + (vals.length - i), ?_, hperm2.trans hperm, ?_, ?_, ?_⟩
    · rw [selectionFor, hrun]
      simp only [hrun2, Function.iterate_add_apply]
    · have : i + (k + 1) = i + 1 + k := by omega
      rw [this]
      exact hord2
    · rw [hlen] at hs
      have h2 : 2 * (vals.length - i) + 2 * i = 2 * vals.length := by omega
      nlinarith [hs, h2]
    · intro hsorted
      have h1 : v1 = vals := hkeep (fun t x hit ht a ha => sorted_head_le hsorted i t a x hit ha ht)
      rw [h1] at hkeep2
      exact hkeep2 hsorted

/-- The run of `selectionSort` with `n` the length of the vector. -/
theorem selectionSort_run (l : List Int) :
    ∃ (v : List Int) (s : Nat), selectionSort l l.length = Run.ret ⟨v, wrapInt32 s⟩ ∧
      List.Perm v l ∧ List.Sorted (· ≤ ·) v ∧
      2 * s + (l.length - 1) * (l.length - 1) = 2 * (l.length - 1) * l.length + (l.length - 1) ∧
      (List.Sorted (· ≤ ·) l → v = l) := by
  obtain ⟨v, s, hrun, hperm, hord, hs, hkeep⟩ :=
    selectionFor_spec (l.length - 1) 0 l 0 (by omega) (fun a b x y _ h => by omega)
  refine ⟨v, s, ?_, hperm, ?_, by simpa using hs, hkeep⟩
  · have h0 : (0 : Int) = wrapInt32 0 := by decide
    have hn : ((l.length : Int) - 1).toNat = l.length - 1 := by omega
    rw [selectionSort, hn, hrun]
    conv_lhs => rw [h0]
    rw [incr_iterate]
    simp [finish]
  · apply Ordered.sorted
    rw [hperm.length_eq]
    simpa using hord

/-! ## Passes in a row -/

theorem bubblePasses_eq : ∀ (j : Nat) (vals : List Int) (c : Int),
    bubblePasses vals.length j vals c =
      some (bubble^[j] vals, incr^[j * (vals.length - 1)] c) := by
  intro j
  induction j with
  | zero => intro vals c; simp [bubblePasses]
  | succ j ih =>
    intro vals c
    have := ih (bubble vals) (incr^[vals.length - 1] c)
    rw [bubble_length] at this
    rw [bubblePasses, bubblePass_eq]
    simp only [this, Function.iterate_succ_apply]
    rw [← Function.iterate_add_apply]
    congr 3
    ring

/-! ## Strictly decreasing inputs -/

/-- An element larger than all it meets is carried to the end. -/
theorem carry_gt (t : List Int) (a : Int) (h : ∀ x ∈ t, x < a) : carry a t = t ++ [a] := by
  induction t with
  | nil => rfl
  | cons b t ih =>
    have hb : a > b := h b (List.mem_cons_self _ _)
    simp [carry, hb, ih (fun x hx => h x (List.mem_cons_of_mem _ hx))]

/-- On a strictly decreasing list, `j` passes move the first `j` elements, reversed, behind the
others. -/
theorem bubble_iterate_decreasing (l : List Int) (hl : List.Sorted (· > ·) l) :
    ∀ j, j ≤ l.length → bubble^[j] l = l.drop j ++ (l.take j).reverse := by
  intro j
  induction j with
  | zero => intro _; simp
  | succ j ih =>
    intro hj
    have hjl : j < l.length := by omega
    rw [Function.iterate_succ_apply', ih (by omega), List.drop_eq_getElem_cons hjl]
    have hsplit : l = l.take j ++ l[j] :: l.drop (j + 1) := by
      rw [← List.drop_eq_getElem_cons hjl, List.take_append_drop]
    have hpw : List.Pairwise (· > ·) (l.take j ++ l[j] :: l.drop (j + 1)) := by
      rw [← hsplit]; exact hl
    rw [List.pairwise_append] at hpw
    obtain ⟨hpt, hpd, hcross⟩ := hpw
    have hs : List.Sorted (· ≤ ·) (l.take j).reverse := by
      rw [List.Sorted, List.pairwise_reverse]
      exact hpt.imp (fun h => by omega)
    show carry l[j] (l.drop (j + 1) ++ (l.take j).reverse) = _
    rw [carry_append _ hs, carry_gt _ _ (fun x hx => (List.pairwise_cons.mp hpd).1 x hx)]
    · rw [List.take_succ, List.getElem?_eq_getElem hjl]
      simp only [Option.toList, List.reverse_append, List.reverse_cons, List.reverse_nil,
        List.nil_append, List.append_assoc, List.singleton_append]
    · intro x hx y hy
      have := hcross y (List.mem_reverse.mp hy) x hx
      omega

/-- Fewer than `length - 1` passes leave a strictly decreasing list out of order. -/
theorem bubble_iterate_decreasing_unsorted (l : List Int) (hl : List.Sorted (· > ·) l)
    (j : Nat) (hj : j + 2 ≤ l.length) : ¬ List.Sorted (· ≤ ·) (bubble^[j] l) := by
  rw [bubble_iterate_decreasing l hl j (by omega)]
  intro hs
  have hd : List.Sorted (· ≤ ·) (l.drop j) := (List.pairwise_append.mp hs).1
  have hd' : List.Sorted (· > ·) (l.drop j) := List.Pairwise.sublist (List.drop_sublist j l) hl
  have h1 : j < l.length := by omega
  have h2 : j + 1 < l.length := by omega
  rw [List.drop_eq_getElem_cons h1, List.drop_eq_getElem_cons h2] at hd hd'
  have a1 := List.rel_of_sorted_cons hd _ (List.mem_cons_self _ _)
  have a2 := List.rel_of_sorted_cons hd' _ (List.mem_cons_self _ _)
  omega

/-- On a strictly decreasing vector of length `N ≥ 2`, `bubbleSort` needs exactly `N - 1`
passes and counts `(N - 1) * (N - 1)` steps. -/
theorem bubbleSort_decreasing (l : List Int) (hl : List.Sorted (· > ·) l) (hN : 2 ≤ l.length) :
    bubbleSort (l.length - 2) l l.length = Run.diverge ∧
    ∀ fuel, l.length - 1 ≤ fuel → bubbleSort fuel l l.length =
      Run.ret ⟨bubble^[l.length - 1] l,
        wrapInt32 (((l.length - 1) * (l.length - 1) : Nat) : Int)⟩ := by
  obtain ⟨k, hk1, hk2, hs, hdiv, hret⟩ := bubbleSort_run l
  have hk : k = l.length - 1 := by
    by_contra hne
    exact bubble_iterate_decreasing_unsorted l hl k (by omega) hs
  subst hk
  exact ⟨hdiv, hret⟩

theorem descending_length (n : Nat) : (descending n).length = n := by
  induction n with
  | zero => rfl
  | succ n ih => simp [descending, ih]

theorem descending_mem_le (n : Nat) : ∀ x ∈ descending n, x ≤ (n : Int) := by
  induction n with
  | zero => intro x hx; simp [descending] at hx
  | succ n ih =>
    intro x hx
    simp only [descending, List.mem_cons] at hx
    rcases hx with rfl | hx
    · exact le_refl _
    · have := ih x hx
      push_cast
      omega

theorem descending_sorted (n : Nat) : List.Sorted (· > ·) (descending n) := by
  induction n with
  | zero => exact List.sorted_nil
  | succ n ih =>
    refine List.sorted_cons.mpr ⟨fun y hy => ?_, ih⟩
    have := descending_mem_le n y hy
    push_cast
    omega

/-! ## Shared facts on the counter -/

theorem selection_count_closed (N s : Nat)
    (hs : 2 * s + (N - 1) * (N - 1) = 2 * (N - 1) * N + (N - 1)) :
    s = (N - 1) + N * (N - 1) / 2 := by
  rcases Nat.eq_zero_or_pos N with h0 | hpos
  · subst h0
    simp at hs
    simpa using hs
  · obtain ⟨m, rfl⟩ : ∃ m, N = m + 1 := ⟨N - 1, by omega⟩
    simp only [Nat.add_sub_cancel] at hs ⊢
    have h2 : (m + 1) * m = 2 * s - 2 * m := by
      have : 2 * s = (m + 1) * m + 2 * m := by nlinarith [hs]
      omega
    have h3 : 2 * m ≤ 2 * s := by nlinarith [hs]
    rw [h2]
    omega

/-! ## Claims -/

/-- C1. For every vector `S`, the call `bubbleSort(S, n)` with `n` the length of `S` returns as
soon as it is allowed `max 1 (n - 1)` passes, and the vector it leaves is in non-decreasing
order. -/
theorem bubbleSort_terminates_sorted (S : List Int) (fuel : Nat)
    (hfuel : max 1 (S.length - 1) ≤ fuel) :
    ∃ r, bubbleSort fuel S S.length = Run.ret r ∧ List.Sorted (· ≤ ·) r.vals := by
  obtain ⟨k, _, hk2, hs, _, hret⟩ := bubbleSort_run S
  exact ⟨_, hret fuel (by omega), hs⟩

theorem bubbleSort_terminates_sorted_witness :
    max 1 (([3, 1, 4, 5, 2] : List Int).length - 1) ≤ 4 ∧
    ∃ r, bubbleSort 4 [3, 1, 4, 5, 2] ([3, 1, 4, 5, 2] : List Int).length = Run.ret r ∧
      List.Sorted (· ≤ ·) r.vals :=
  ⟨by decide, bubbleSort_terminates_sorted [3, 1, 4, 5, 2] 4 (by decide)⟩

/-- C2. For every vector `S`, the call `selectionSort(S, n)` with `n` the length of `S` returns
and leaves the vector in non-decreasing order. -/
theorem selectionSort_sorted (S : List Int) :
    ∃ r, selectionSort S S.length = Run.ret r ∧ List.Sorted (· ≤ ·) r.vals := by
  obtain ⟨v, s, hrun, _, hs, _, _⟩ := selectionSort_run S
  exact ⟨_, hrun, hs⟩

/-- C3. For every vector `S` (duplicates allowed), the vector left by `bubbleSort(S, n)` with
`n` the length of `S` is a permutation of `S` of the same length, and so is the vector after
any number `j` of passes. -/
theorem bubbleSort_perm (S : List Int) (fuel : Nat) (hfuel : max 1 (S.length - 1) ≤ fuel) :
    (∃ r, bubbleSort fuel S S.length = Run.ret r ∧ List.Perm r.vals S ∧
      r.vals.length = S.length) ∧
    ∀ j, ∃ v c, bubblePasses S.length j S 0 = some (v, c) ∧ List.Perm v S ∧
      v.length = S.length := by
  constructor
  · obtain ⟨k, _, hk2, _, _, hret⟩ := bubbleSort_run S
    exact ⟨_, hret fuel (by omega), bubble_iterate_perm k S, bubble_iterate_length k S⟩
  · intro j
    exact ⟨_, _, bubblePasses_eq j S 0, bubble_iterate_perm j S, bubble_iterate_length j S⟩

theorem bubbleSort_perm_witness :
    max 1 (([2, 3, 2, 1] : List Int).length - 1) ≤ 3 ∧
    ((∃ r, bubbleSort 3 [2, 3, 2, 1] ([2, 3, 2, 1] : List Int).length = Run.ret r ∧
        List.Perm r.vals [2, 3, 2, 1] ∧ r.vals.length = ([2, 3, 2, 1] : List Int).length) ∧
      ∀ j, ∃ v c, bubblePasses ([2, 3, 2, 1] : List Int).length j [2, 3, 2, 1] 0 = some (v, c) ∧
        List.Perm v [2, 3, 2, 1] ∧ v.length = ([2, 3, 2, 1] : List Int).length) :=
  ⟨by decide, bubbleSort_perm [2, 3, 2, 1] 3 (by decide)⟩

/-- C4. For every vector `S` (duplicates allowed), the vector left by `selectionSort(S, n)` with
`n` the length of `S` is a permutation of `S`; and every single outer iteration, at any index
`i` of any vector, leaves a permutation of the vector it started from: the three assignments
that exchange the head with the recorded minimum create and destroy no value, also when
`min_idx == i`. -/
theorem selectionSort_perm (S : List Int) :
    (∃ r, selectionSort S S.length = Run.ret r ∧ List.Perm r.vals S) ∧
    ∀ (vals : List Int) (c : Int) (i : Nat), i < vals.length →
      ∃ v c', selectionOuterBody vals c i = some (v, c') ∧ List.Perm v vals := by
  constructor
  · obtain ⟨v, s, hrun, hperm, _, _, _⟩ := selectionSort_run S
    exact ⟨_, hrun, hperm⟩
  · intro vals c i hi
    obtain ⟨v, m, hrun, hperm, _⟩ := selectionOuterBody_effect vals c i hi
    exact ⟨v, _, hrun, hperm⟩

theorem selectionSort_perm_witness :
    (∃ r, selectionSort [2, 1, 2] ([2, 1, 2] : List Int).length = Run.ret r ∧
      List.Perm r.vals [2, 1, 2]) ∧
    ∃ v c', selectionOuterBody [1, 3, 2] 0 0 = some (v, c') ∧ List.Perm v [1, 3, 2] :=
  ⟨(selectionSort_perm [2, 1, 2]).1, (selectionSort_perm [2, 1, 2]).2 [1, 3, 2] 0 0 (by decide)⟩

/-- C5 (the code at the failing input). `insertionSort` only counts: on the vector `[2, 1]` with
`n = 2` it returns the vector as it was, which is not in non-decreasing order, and reports one
step. -/
theorem insertionSort_leaves_unsorted :
    insertionSort [2, 1] 2 = Run.ret ⟨[2, 1], 1⟩ ∧
    ¬ List.Sorted (· ≤ ·) ([2, 1] : List Int) :=
  ⟨by decide, by decide⟩

/-- C6 (as stated, refuted). On a vector of 65536 elements `selectionSort` makes
`65535 + 65536 * 65535 / 2 = 2147516415` counted steps, more than an `int` holds: the value of
`num_its` it reports is `-2147450881`. -/
theorem selectionSort_count_overflow :
    ∃ r, selectionSort (List.replicate 65536 0) 65536 = Run.ret r ∧
      r.num_its = -2147450881 ∧
      r.num_its ≠ (65536 - 1) + 65536 * (65536 - 1) / 2 := by
  obtain ⟨v, s, hrun, _, _, hs, _⟩ := selectionSort_run (List.replicate 65536 0)
  have hs' := selection_count_closed _ s hs
  simp only [List.length_replicate] at hs' hrun
  have hval : s = 2147516415 := by rw [hs']
  subst hval
  have hw : wrapInt32 ((2147516415 : Nat) : Int) = -2147450881 := by decide
  rw [hw] at hrun
  refine ⟨_, hrun, rfl, ?_⟩
  show (-2147450881 : Int) ≠ (65536 - 1) + 65536 * (65536 - 1) / 2
  decide

/-- C6 (amended). For every vector of length `N`, `selectionSort` with `n = N` returns and
reports the `int` value of `(N - 1) + N * (N - 1) / 2`, whatever the order and the values of
the elements; for `N ≤ 65535` that is exactly `(N - 1) + N * (N - 1) / 2` (which is `0` for
`N = 0`). -/
theorem selectionSort_count (S : List Int) :
    ∃ r, selectionSort S S.length = Run.ret r ∧
      r.num_its = wrapInt32 (((S.length - 1) + S.length * (S.length - 1) / 2 : Nat) : Int) ∧
      (S.length ≤ 65535 →
        r.num_its = (((S.length - 1) + S.length * (S.length - 1) / 2 : Nat) : Int)) := by
  obtain ⟨v, s, hrun, _, _, hs, _⟩ := selectionSort_run S
  have hs' := selection_count_closed _ s hs
  subst hs'
  refine ⟨_, hrun, rfl, fun hN => ?_⟩
  have h1 : S.length * (S.length - 1) ≤ 65535 * 65534 :=
    Nat.mul_le_mul hN (by omega)
  have h2 : S.length * (S.length - 1) / 2 ≤ 65535 * 65534 / 2 := Nat.div_le_div_right h1
  exact wrapInt32_eq_self (by omega) (by omega)

theorem selectionSort_count_witness :
    ([3, 1, 4, 5, 2] : List Int).length ≤ 65535 ∧
    ∃ r, selectionSort [3, 1, 4, 5, 2] ([3, 1, 4, 5, 2] : List Int).length = Run.ret r ∧
      r.num_its = 14 := by
  refine ⟨by decide, ?_⟩
  obtain ⟨r, hrun, _, hexact⟩ := selectionSort_count [3, 1, 4, 5, 2]
  exact ⟨r, hrun, hexact (by decide)⟩

/-- C7 (as stated, refuted). On the strictly decreasing vector of length 46342 `bubbleSort`
makes 46341 passes of 46341 steps, `2147488281` in all, more than an `int` holds: the value of
`num_its` it reports is `-2147479015`, which is not `k * (N - 1)` for any `k ≥ 1`. -/
theorem bubbleSort_count_overflow :
    ∃ r, bubbleSort 46341 (descending 46342) 46342 = Run.ret r ∧
      r.num_its = -2147479015 ∧
      ¬ ∃ k : Int, 1 ≤ k ∧ r.num_its = k * (46342 - 1) := by
  have hlen := descending_length 46342
  have h := (bubbleSort_decreasing (descending 46342) (descending_sorted 46342)
    (by rw [hlen]; decide)).2 46341 (by rw [hlen])
  rw [hlen] at h
  have hw : wrapInt32 (((46342 - 1) * (46342 - 1) : Nat) : Int) = -2147479015 := by decide
  rw [hw] at h
  refine ⟨_, h, rfl, ?_⟩
  rintro ⟨k, hk, hval⟩
  simp only at hval
  omega

/-- C7 (amended). For every vector of length `N ≥ 2`, `bubbleSort` with `n = N` makes some
number `k` of full passes with `1 ≤ k ≤ N - 1`: it does not return within `k - 1` passes, it
returns what `k` passes in a row leave, and it reports the `int` value of `k * (N - 1)`. That
value is exactly `k * (N - 1)`, a multiple of `N - 1` and at least `N - 1`, whenever
`k * (N - 1) ≤ 2147483647`, which holds for every `N ≤ 46341`. -/
theorem bubbleSort_count (S : List Int) (hN : 2 ≤ S.length) :
    ∃ k r, 1 ≤ k ∧ k ≤ S.length - 1 ∧
      bubbleSort (k - 1) S S.length = Run.diverge ∧
      (∀ fuel, k ≤ fuel → bubbleSort fuel S S.length = Run.ret r) ∧
      bubblePasses S.length k S 0 = some (r.vals, r.num_its) ∧
      r.num_its = wrapInt32 ((k * (S.length - 1) : Nat) : Int) ∧
      (k * (S.length - 1) ≤ 2147483647 → r.num_its = ((k * (S.length - 1) : Nat) : Int)) ∧
      (S.length ≤ 46341 → k * (S.length - 1) ≤ 2147483647) := by
  obtain ⟨k, hk1, hk2, _, hdiv, hret⟩ := bubbleSort_run S
  refine ⟨k, _, hk1, by omega, hdiv, hret, ?_, rfl, ?_, ?_⟩
  · have h0 : (0 : Int) = wrapInt32 0 := by decide
    rw [bubblePasses_eq]
    conv_lhs => rw [h0]
    rw [incr_iterate]
    simp
  · intro hle
    exact wrapInt32_eq_self (by omega) (by omega)
  · intro hle
    have : k * (S.length - 1) ≤ 46340 * 46340 := Nat.mul_le_mul (by omega) (by omega)
    omega

theorem bubbleSort_count_witness :
    2 ≤ ([3, 1, 4, 5, 2] : List Int).length ∧
    ∃ k r, 1 ≤ k ∧ k ≤ ([3, 1, 4, 5, 2] : List Int).length - 1 ∧
      bubbleSort (k - 1) [3, 1, 4, 5, 2] ([3, 1, 4, 5, 2] : List Int).length = Run.diverge ∧
      (∀ fuel, k ≤ fuel →
        bubbleSort fuel [3, 1, 4, 5, 2] ([3, 1, 4, 5, 2] : List Int).length = Run.ret r) ∧
      bubblePasses ([3, 1, 4, 5, 2] : List Int).length k [3, 1, 4, 5, 2] 0 =
        some (r.vals, r.num_its) ∧
      r.num_its = wrapInt32 ((k * (([3, 1, 4, 5, 2] : List Int).length - 1) : Nat) : Int) ∧
      (k * (([3, 1, 4, 5, 2] : List Int).length - 1) ≤ 2147483647 →
        r.num_its = ((k * (([3, 1, 4, 5, 2] : List Int).length - 1) : Nat) : Int)) ∧
      (([3, 1, 4, 5, 2] : List Int).length ≤ 46341 →
        k * (([3, 1, 4, 5, 2] : List Int).length - 1) ≤ 2147483647) :=
  ⟨by decide, bubbleSort_count [3, 1, 4, 5, 2] (by decide)⟩

/-- C8. On a vector of length 0 or 1, each of `bubbleSort` (allowed at least one pass),
`selectionSort` and `insertionSort`, called with `n` that length, returns the vector unchanged
and reports 0 steps. -/
theorem short_vector_zero_steps (S : List Int) (h : S.length ≤ 1) :
    (∀ fuel, 1 ≤ fuel → bubbleSort fuel S S.length = Run.ret ⟨S, 0⟩) ∧
    selectionSort S S.length = Run.ret ⟨S, 0⟩ ∧
    insertionSort S S.length = Run.ret ⟨S, 0⟩ := by
  match S, h with
  | [], _ =>
    refine ⟨fun fuel hf => ?_, by decide, by decide⟩
    obtain ⟨f, rfl⟩ : ∃ f, fuel = f + 1 := ⟨fuel - 1, by omega⟩
    rfl
  | [x], _ =>
    refine ⟨fun fuel hf => ?_, rfl, rfl⟩
    obtain ⟨f, rfl⟩ : ∃ f, fuel = f + 1 := ⟨fuel - 1, by omega⟩
    rfl
  | _ :: _ :: _, h => simp at h

theorem short_vector_zero_steps_witness :
    ([7] : List Int).length ≤ 1 ∧
    ((∀ fuel, 1 ≤ fuel → bubbleSort fuel [7] ([7] : List Int).length = Run.ret ⟨[7], 0⟩) ∧
      selectionSort [7] ([7] : List Int).length = Run.ret ⟨[7], 0⟩ ∧
      insertionSort [7] ([7] : List Int).length = Run.ret ⟨[7], 0⟩) :=
  ⟨by decide, short_vector_zero_steps [7] (by decide)⟩

/-- C9. On a vector `S` already in non-decreasing order (duplicates allowed), `bubbleSort`
(allowed at least one pass) and `selectionSort`, called with `n` the length of `S`, both return
and leave `S` as it was, element for element. -/
theorem sorted_input_unchanged (S : List Int) (hs : List.Sorted (· ≤ ·) S) :
    (∀ fuel, 1 ≤ fuel → ∃ r, bubbleSort fuel S S.length = Run.ret r ∧ r.vals = S) ∧
    ∃ r, selectionSort S S.length = Run.ret r ∧ r.vals = S := by
  constructor
  · intro fuel hf
    have h1 : bubble^[0 + 1] S = S := by simp [bubble_sorted S hs]
    have := bubbleLoop_ret 0 fuel S 0 (by omega) (fun j hj1 hj0 => by omega)
      (by rw [h1]; exact hs)
    exact ⟨_, this, h1⟩
  · obtain ⟨v, s, hrun, _, _, _, hkeep⟩ := selectionSort_run S
    exact ⟨_, hrun, hkeep hs⟩

theorem sorted_input_unchanged_witness :
    List.Sorted (· ≤ ·) ([1, 2, 2, 5] : List Int) ∧
    ((∀ fuel, 1 ≤ fuel →
        ∃ r, bubbleSort fuel [1, 2, 2, 5] ([1, 2, 2, 5] : List Int).length = Run.ret r ∧
          r.vals = [1, 2, 2, 5]) ∧
      ∃ r, selectionSort [1, 2, 2, 5] ([1, 2, 2, 5] : List Int).length = Run.ret r ∧
        r.vals = [1, 2, 2, 5]) :=
  ⟨by decide, sorted_input_unchanged [1, 2, 2, 5] (by decide)⟩

/-- C10. For every vector `S`, `bubbleSort` (allowed `max 1 (n - 1)` passes) and
`selectionSort`, each called with `n` the length of `S`, return the same final vector. -/
theorem bubbleSort_selectionSort_agree (S : List Int) (fuel : Nat)
    (hfuel : max 1 (S.length - 1) ≤ fuel) :
    ∃ r₁ r₂, bubbleSort fuel S S.length = Run.ret r₁ ∧
      selectionSort S S.length = Run.ret r₂ ∧ r₁.vals = r₂.vals := by
  obtain ⟨k, _, hk2, hsb, _, hret⟩ := bubbleSort_run S
  obtain ⟨v, s, hrun, hperm, hss, _, _⟩ := selectionSort_run S
  refine ⟨_, _, hret fuel (by omega), hrun, ?_⟩
  exact List.eq_of_perm_of_sorted ((bubble_iterate_perm k S).trans hperm.symm) hsb hss

theorem bubbleSort_selectionSort_agree_witness :
    max 1 (([3, 1, 4, 5, 2] : List Int).length - 1) ≤ 4 ∧
    (∃ r₁ r₂, bubbleSort 4 [3, 1, 4, 5, 2] ([3, 1, 4, 5, 2] : List Int).length = Run.ret r₁ ∧
      selectionSort [3, 1, 4, 5, 2] ([3, 1, 4, 5, 2] : List Int).length = Run.ret r₂ ∧
      r₁.vals = r₂.vals) ∧
    bubbleSort 4 [3, 1, 4, 5, 2] 5 = Run.ret ⟨[1, 2, 3, 4, 5], 12⟩ ∧
    selectionSort [3, 1, 4, 5, 2] 5 = Run.ret ⟨[1, 2, 3, 4, 5], 14⟩ :=
  ⟨by decide, bubbleSort_selectionSort_agree [3, 1, 4, 5, 2] 4 (by decide), by decide,
    by decide⟩

/-! ## Lower-casing -/

theorem toNat_ofNat_lower (n : Nat) (h1 : 65 ≤ n) (h2 : n ≤ 90) :
    (Char.ofNat (n + 32)).toNat = n + 32 := by
  interval_cases n <;> rfl

theorem toLower_toLower (c : Char) : c.toLower.toLower = c.toLower := by
  by_cases h : c.toNat ≥ 65 ∧ c.toNat ≤ 90
  · have h1 : c.toLower = Char.ofNat (c.toNat + 32) := by
      simp only [Char.toLower, h, and_self, if_true]
    have h2 := toNat_ofNat_lower c.toNat h.1 h.2
    have h3 : ¬ ((Char.ofNat (c.toNat + 32)).toNat ≥ 65 ∧
        (Char.ofNat (c.toNat + 32)).toNat ≤ 90) := by
      rw [h2]; omega
    rw [h1]
    simp only [Char.toLower, h3, if_false]
  · have h1 : c.toLower = c := by
      simp only [Char.toLower, h, if_false]
    rw [h1, h1]

theorem toLowerCase_idem (s : String) : toLowerCase (toLowerCase s) = toLowerCase s := by
  simp only [toLowerCase, List.map_map]
  congr 1
  apply List.map_congr_left
  intro c _
  exact toLower_toLower c

/-- An iteration of the loop of `main` looks at the token through `toLowerCase` only. -/
theorem selectorBody_congr (b s : List Int → Run (List Int × List Line)) (st : Selector)
    (t t' : String) (h : toLowerCase t = toLowerCase t') :
    selectorBody b s st t = selectorBody b s st t' := by
  unfold selectorBody
  rw [h]

/-- The last branch of the loop body: nothing is called, the flag is left as it was. -/
theorem selectorBody_other (b s : List Int → Run (List Int × List Line)) (st : Selector)
    (t : String) (h1 : toLowerCase t ≠ "bubble") (h2 : toLowerCase t ≠ "selection")
    (h3 : toLowerCase t ≠ "help") :
    selectorBody b s st t = Run.ret ⟨st.sortArray, st.incorrectSortMethod,
      st.out ++ [Line.text "Sorting Method: ",
        Line.text "Please enter valid sorting method (enter HELP for list)"]⟩ := by
  unfold selectorBody
  simp [h1, h2, h3]

/-- C11 (the code at the failing inputs). The tokens `insertion`, `merge` and `quick`, though
`sortMethods` lists them and `help` prints them, take the last branch of the loop body: no sort
routine is called, the vector and `incorrectSortMethod` are left as they were, the re-prompt
message is written, and from the initial flag `true` the loop goes on to the next token. Only
`bubble` and `selection` call a routine and set the flag to `false`. -/
theorem selector_rejects_listed_methods (b s : List Int → Run (List Int × List Line))
    (st : Selector) :
    (∀ t ∈ ["insertion", "merge", "quick"],
      selectorBody b s st t = Run.ret ⟨st.sortArray, st.incorrectSortMethod,
        st.out ++ [Line.text "Sorting Method: ",
          Line.text "Please enter valid sorting method (enter HELP for list)"]⟩) ∧
    (∀ t ∈ ["Insertion", "Merge", "Quick"], t ∈ sortMethods) ∧
    selectorLoop b s ["insertion", "merge", "quick"] ⟨st.sortArray, true, st.out⟩ =
      Run.diverge := by
  have hbody : ∀ (st : Selector), ∀ t ∈ ["insertion", "merge", "quick"],
      selectorBody b s st t = Run.ret ⟨st.sortArray, st.incorrectSortMethod,
        st.out ++ [Line.text "Sorting Method: ",
          Line.text "Please enter valid sorting method (enter HELP for list)"]⟩ := by
    intro st t ht
    simp only [List.mem_cons, List.mem_singleton, List.not_mem_nil, or_false] at ht
    rcases ht with rfl | rfl | rfl <;>
      exact selectorBody_other b s st _ (by decide) (by decide) (by decide)
  refine ⟨hbody st, by decide, ?_⟩
  simp [selectorLoop, hbody]

/-- C12. One iteration of the loop of `main` depends on the token only through its
lower-casing: two tokens with the same lower-casing, in particular `t` and `toLowerCase t`,
give the same outcome, so every spelling of `bubble` (such as `BUBBLE`) does what `bubble`
does; and a token whose lower-casing is none of `bubble`, `selection`, `help` leaves the vector
and the flag as they were, writes the re-prompt message, and keeps the loop going. -/
theorem selector_case_insensitive (b s : List Int → Run (List Int × List Line))
    (st : Selector) (t : String) :
    selectorBody b s st t = selectorBody b s st (toLowerCase t) ∧
    (∀ t', toLowerCase t = toLowerCase t' → selectorBody b s st t = selectorBody b s st t') ∧
    (toLowerCase t = "bubble" → selectorBody b s st t = selectorBody b s st "bubble") ∧
    toLowerCase "BUBBLE" = "bubble" ∧
    (toLowerCase t ≠ "bubble" → toLowerCase t ≠ "selection" → toLowerCase t ≠ "help" →
      selectorBody b s st t = Run.ret ⟨st.sortArray, st.incorrectSortMethod,
        st.out ++ [Line.text "Sorting Method: ",
          Line.text "Please enter valid sorting method (enter HELP for list)"]⟩ ∧
      ∀ rest, st.incorrectSortMethod = true →
        selectorLoop b s (t :: rest) st = selectorLoop b s rest ⟨st.sortArray, true,
          st.out ++ [Line.text "Sorting Method: ",
            Line.text "Please enter valid sorting method (enter HELP for list)"]⟩) := by
  refine ⟨selectorBody_congr b s st _ _ (toLowerCase_idem t).symm,
    fun t' h => selectorBody_congr b s st _ _ h,
    fun h => selectorBody_congr b s st _ _ (by rw [h]; decide), by decide, ?_⟩
  intro h1 h2 h3
  have hb := selectorBody_other b s st t h1 h2 h3
  refine ⟨hb, fun rest hflag => ?_⟩
  rw [selectorLoop, hb]
  simp [hflag]

theorem selector_case_insensitive_witness :
    toLowerCase "BuBbLe" = "bubble" ∧
    selectorBody (bubbleCallWhole 4 "0.01") (selectionCallWhole "0.02")
      ⟨[3, 1, 4, 5, 2], true, []⟩ "BuBbLe" =
      Run.ret ⟨[1, 2, 3, 4, 5], false,
        [Line.text "Sorting Method: ", Line.steps "Bubble" 12, Line.elapsed "0.01"]⟩ ∧
    selectorBody (bubbleCallWhole 4 "0.01") (selectionCallWhole "0.02")
      ⟨[3, 1, 4, 5, 2], true, []⟩ "bogus" =
      Run.ret ⟨[3, 1, 4, 5, 2], true, [Line.text "Sorting Method: ",
        Line.text "Please enter valid sorting method (enter HELP for list)"]⟩ :=
  ⟨by decide,
    ((selector_case_insensitive (bubbleCallWhole 4 "0.01") (selectionCallWhole "0.02")
      ⟨[3, 1, 4, 5, 2], true, []⟩ "BuBbLe").2.2.1 (by decide)).trans (by decide),
    ((selector_case_insensitive (bubbleCallWhole 4 "0.01") (selectionCallWhole "0.02")
      ⟨[3, 1, 4, 5, 2], true, []⟩ "bogus").2.2.2.2 (by decide) (by decide) (by decide)).1⟩

/-- C13. Every call of `bubbleSort`, `selectionSort` or `insertionSort` that returns writes
exactly two items: first the step count `"<Name> Sort: <count> iterations"` with the value of
`num_its` it returns, last the elapsed time `"Sorted in <ms>ms."` written by the destructor of
the local `timer`. -/
theorem sort_call_output (fuel : Nat) (vals : List Int) (n : Int) (ms : String) :
    (∀ r out, bubbleSortOutput fuel vals n ms = Run.ret (r, out) →
      bubbleSort fuel vals n = Run.ret r ∧
      out = [Line.steps "Bubble" r.num_its, Line.elapsed ms]) ∧
    (∀ r out, selectionSortOutput vals n ms = Run.ret (r, out) →
      selectionSort vals n = Run.ret r ∧
      out = [Line.steps "Selection" r.num_its, Line.elapsed ms]) ∧
    (∀ r out, insertionSortOutput vals n ms = Run.ret (r, out) →
      insertionSort vals n = Run.ret r ∧
      out = [Line.steps "Insertion" r.num_its, Line.elapsed ms]) ∧
    (∀ name count, (Line.steps name count).render =
      name ++ " Sort: " ++ toString count ++ " iterations") ∧
    (Line.elapsed ms).render = "Sorted in " ++ ms ++ "ms." := by
  have key : ∀ (name : String) (run : Run Report) (r : Report) (out : List Line),
      report name ms run = Run.ret (r, out) →
      run = Run.ret r ∧ out = [Line.steps name r.num_its, Line.elapsed ms] := by
    intro name run r out h
    cases run with
    | ret r' =>
      simp only [report, Timer.destructor, Run.ret.injEq, Prod.mk.injEq] at h
      obtain ⟨rfl, rfl⟩ := h
      exact ⟨rfl, rfl⟩
    | ub => simp [report] at h
    | diverge => simp [report] at h
  exact ⟨fun r out h => key _ _ r out h, fun r out h => key _ _ r out h,
    fun r out h => key _ _ r out h, fun _ _ => rfl, rfl⟩

theorem sort_call_output_witness :
    bubbleSortOutput 4 [3, 1, 4, 5, 2] 5 "0.01" =
      Run.ret (⟨[1, 2, 3, 4, 5], 12⟩, [Line.steps "Bubble" 12, Line.elapsed "0.01"]) ∧
    bubbleSort 4 [3, 1, 4, 5, 2] 5 = Run.ret ⟨[1, 2, 3, 4, 5], 12⟩ ∧
    (Line.steps "Bubble" 12).render = "Bubble Sort: 12 iterations" ∧
    (Line.elapsed "0.01").render = "Sorted in 0.01ms." :=
  ⟨by decide,
    ((sort_call_output 4 [3, 1, 4, 5, 2] 5 "0.01").1 ⟨[1, 2, 3, 4, 5], 12⟩
      [Line.steps "Bubble" 12, Line.elapsed "0.01"] (by decide)).1,
    by decide, by decide⟩

/-! ## More on the counter and on swap-free passes -/

theorem wrapInt32_le_self {x : Int} (h : 0 ≤ x) : wrapInt32 x ≤ x := by
  unfold wrapInt32
  omega

/-- A pass that leaves the list as it was found it in non-decreasing order. -/
theorem carry_fixed_sorted (t : List Int) : ∀ a : Int, carry a t = a :: t →
    List.Sorted (· ≤ ·) (a :: t) := by
  induction t with
  | nil => intro a _; exact List.sorted_singleton a
  | cons b t ih =>
    intro a h
    by_cases hab : a > b
    · simp only [carry, hab, if_true, List.cons.injEq] at h
      omega
    · simp only [carry, hab, if_false, List.cons.injEq, true_and] at h
      exact List.Sorted.cons (by omega) (ih b h)

theorem bubble_fixed_iff (l : List Int) : bubble l = l ↔ List.Sorted (· ≤ ·) l := by
  constructor
  · intro h
    cases l with
    | nil => exact List.sorted_nil
    | cons a t => exact carry_fixed_sorted t a h
  · exact bubble_sorted l

/-- A list is in non-decreasing order when no two neighbours are out of order. -/
theorem sorted_iff_neighbours (l : List Int) :
    List.Sorted (· ≤ ·) l ↔ ∀ i a b, l[i]? = some a → l[i + 1]? = some b → a ≤ b := by
  constructor
  · intro hs i a b ha hb
    exact sorted_head_le hs i (i + 1) a b (by omega) ha hb
  · intro h
    induction l with
    | nil => exact List.sorted_nil
    | cons a t ih =>
      cases t with
      | nil => exact List.sorted_singleton a
      | cons b t =>
        have hab : a ≤ b := h 0 a b (by simp) (by simp)
        exact List.Sorted.cons hab
          (ih (fun i x y hx hy => h (i + 1) x y (by simpa using hx) (by simpa using hy)))

/-- From any state of the loop with `n` the length of the vector: a pass over a vector in
non-decreasing order changes nothing and is the last one. -/
theorem bubbleLoop_sorted (fuel : Nat) (vals : List Int) (c : Int)
    (hs : List.Sorted (· ≤ ·) vals) :
    bubbleLoop vals.length (fuel + 1) vals c = Run.ret ⟨vals, incr^[vals.length - 1] c⟩ := by
  rw [bubbleLoop_step, bubble_sorted vals hs]
  simp [(is_sorted_iff vals).mpr hs]

theorem bubbleSort_sorted_run (fuel : Nat) (S : List Int) (hs : List.Sorted (· ≤ ·) S) :
    bubbleSort (fuel + 1) S S.length = Run.ret ⟨S, wrapInt32 ((S.length - 1 : Nat) : Int)⟩ := by
  have h0 : (0 : Int) = wrapInt32 0 := by decide
  rw [bubbleSort, bubbleLoop_sorted fuel S 0 hs]
  conv_lhs => rw [h0]
  rw [incr_iterate]
  simp

theorem replicate_sorted (n : Nat) : List.Sorted (· ≤ ·) (List.replicate n (0 : Int)) := by
  rw [List.Sorted, List.pairwise_replicate]
  right
  exact le_refl _

theorem quadratic_bound_fails (c m M w : ℝ) (hc : 0 < c) (h1 : 1 < c * m) (hM : m + 1 ≤ M)
    (hw : w ≤ M - 1) (hbound : c * M ^ 2 ≤ w) : False := by
  have hcM : 1 < c * M := by nlinarith
  have hM0 : 0 < M := by
    by_contra hneg
    have : c * M ≤ 0 := mul_nonpos_of_nonneg_of_nonpos hc.le (not_lt.mp hneg)
    linarith
  have hMM : M < c * M * M := by nlinarith
  have hpow : c * M ^ 2 = c * M * M := by ring
  linarith

/-- C14 (as stated, refuted). No constant `c > 0` and threshold `N0` make `c * N ^ 2` a lower
bound of the step count reported on every input of length `N ≥ N0`: on an already sorted
vector `bubbleSort` returns after one pass, with at most `N - 1` steps reported. -/
theorem bubbleSort_not_quadratic :
    ¬ ∃ (c : ℝ) (N0 : ℕ), 0 < c ∧ ∀ (N : ℕ), N0 ≤ N → ∀ S : List Int, S.length = N →
      ∀ fuel r, bubbleSort fuel S N = Run.ret r → c * (N : ℝ) ^ 2 ≤ (r.num_its : ℝ) := by
  rintro ⟨c, N0, hc, h⟩
  obtain ⟨m, hm⟩ := exists_nat_gt (1 / c)
  have hrun := bubbleSort_sorted_run 0 (List.replicate (max N0 (m + 1)) 0)
    (replicate_sorted (max N0 (m + 1)))
  simp only [List.length_replicate] at hrun
  have hbound := h (max N0 (m + 1)) (le_max_left _ _) (List.replicate (max N0 (m + 1)) 0)
    (by simp) _ _ hrun
  have hw : wrapInt32 ((max N0 (m + 1) - 1 : ℕ) : ℤ) ≤ ((max N0 (m + 1) - 1 : ℕ) : ℤ) :=
    wrapInt32_le_self (by omega)
  have hw' : ((wrapInt32 ((max N0 (m + 1) - 1 : ℕ) : ℤ) : ℤ) : ℝ) ≤
      ((max N0 (m + 1) - 1 : ℕ) : ℝ) := by exact_mod_cast hw
  have hM : (m : ℝ) + 1 ≤ ((max N0 (m + 1) : ℕ) : ℝ) := by
    exact_mod_cast le_max_right N0 (m + 1)
  have hsub : ((max N0 (m + 1) - 1 : ℕ) : ℝ) ≤ ((max N0 (m + 1) : ℕ) : ℝ) - 1 := by
    have : 1 ≤ max N0 (m + 1) := by omega
    rw [Nat.cast_sub this]
    simp
  have h1 : 1 < c * (m : ℝ) := by
    rw [div_lt_iff₀ hc] at hm
    linarith
  simp only at hbound
  exact quadratic_bound_fails c m _ _ hc h1 hM (le_trans hw' hsub) hbound

/-- C14 (amended). The step count of `bubbleSort` is quadratic in the worst case only: on every
vector of length `N` with `2 ≤ N ≤ 46341`, allowed `N - 1` passes, it returns with a reported
count between `N - 1` and `(N - 1) ^ 2`; the count is exactly `N - 1` when the vector is already
in non-decreasing order and exactly `(N - 1) ^ 2` when it is strictly decreasing. -/
theorem bubbleSort_count_bounds (S : List Int) (hN : 2 ≤ S.length) (hmax : S.length ≤ 46341)
    (fuel : Nat) (hfuel : S.length - 1 ≤ fuel) :
    ∃ r, bubbleSort fuel S S.length = Run.ret r ∧
      ((S.length - 1 : Nat) : Int) ≤ r.num_its ∧
      r.num_its ≤ (((S.length - 1) * (S.length - 1) : Nat) : Int) ∧
      (List.Sorted (· ≤ ·) S → r.num_its = ((S.length - 1 : Nat) : Int)) ∧
      (List.Sorted (· > ·) S → r.num_its = (((S.length - 1) * (S.length - 1) : Nat) : Int)) := by
  obtain ⟨k, hk1, hk2, _, _, hret⟩ := bubbleSort_run S
  have hrun := hret fuel (by omega)
  have hk3 : k ≤ S.length - 1 := by omega
  have hle : k * (S.length - 1) ≤ 46340 * 46340 := Nat.mul_le_mul (by omega) (by omega)
  have hge : 1 * (S.length - 1) ≤ k * (S.length - 1) := Nat.mul_le_mul_right _ hk1
  have hsq : k * (S.length - 1) ≤ (S.length - 1) * (S.length - 1) :=
    Nat.mul_le_mul_right _ hk3
  have hexact : wrapInt32 ((k * (S.length - 1) : Nat) : Int) = ((k * (S.length - 1) : Nat) : Int) :=
    wrapInt32_eq_self (by omega) (by omega)
  have hsq' : (S.length - 1) * (S.length - 1) ≤ 46340 * 46340 :=
    Nat.mul_le_mul (by omega) (by omega)
  refine ⟨_, hrun, ?_, ?_, ?_, ?_⟩
  · show _ ≤ wrapInt32 _
    rw [hexact]
    exact_mod_cast (by omega : S.length - 1 ≤ k * (S.length - 1))
  · show wrapInt32 _ ≤ _
    rw [hexact]
    exact_mod_cast hsq
  · intro hs
    obtain ⟨f, rfl⟩ : ∃ f, fuel = f + 1 := ⟨fuel - 1, by omega⟩
    have h2 := bubbleSort_sorted_run f S hs
    rw [hrun] at h2
    have h3 := congrArg (fun x => match x with | Run.ret r => r.num_its | _ => 0) h2
    simp only at h3
    show wrapInt32 _ = _
    rw [h3]
    exact wrapInt32_eq_self (by omega) (by omega)
  · intro hd
    have h2 := (bubbleSort_decreasing S hd hN).2 fuel hfuel
    rw [hrun] at h2
    have h3 := congrArg (fun x => match x with | Run.ret r => r.num_its | _ => 0) h2
    simp only at h3
    show wrapInt32 _ = _
    rw [h3]
    exact wrapInt32_eq_self (by omega) (by omega)

theorem bubbleSort_count_bounds_witness :
    2 ≤ ([3, 1, 4, 5, 2] : List Int).length ∧ ([3, 1, 4, 5, 2] : List Int).length ≤ 46341 ∧
    ([3, 1, 4, 5, 2] : List Int).length - 1 ≤ 4 ∧
    ∃ r, bubbleSort 4 [3, 1, 4, 5, 2] ([3, 1, 4, 5, 2] : List Int).length = Run.ret r ∧
      4 ≤ r.num_its ∧ r.num_its ≤ 16 := by
  refine ⟨by decide, by decide, by decide, ?_⟩
  obtain ⟨r, hrun, hlo, hhi, _, _⟩ :=
    bubbleSort_count_bounds [3, 1, 4, 5, 2] (by decide) (by decide) 4 (by decide)
  exact ⟨r, hrun, hlo, hhi⟩

/-- C15 (as stated, refuted). The strictly decreasing vector of length 50000 takes exactly
49999 passes, but the step count it is reported with is not `(N - 1) ^ 2 = 2499900001`: that
number does not fit an `int`, and `num_its` ends at `-1795067295`. -/
theorem bubbleSort_bound_not_attained :
    ∃ r, bubbleSort 49999 (descending 50000) 50000 = Run.ret r ∧
      bubbleSort 49998 (descending 50000) 50000 = Run.diverge ∧
      r.num_its = -1795067295 ∧
      r.num_its ≠ (50000 - 1) ^ 2 := by
  have hlen := descending_length 50000
  have h := bubbleSort_decreasing (descending 50000) (descending_sorted 50000)
    (by rw [hlen]; decide)
  rw [hlen] at h
  have hw : wrapInt32 (((50000 - 1) * (50000 - 1) : Nat) : Int) = -1795067295 := by decide
  have hret := h.2 49999 (by decide)
  rw [hw] at hret
  refine ⟨_, hret, h.1, rfl, ?_⟩
  show (-1795067295 : Int) ≠ (50000 - 1) ^ 2
  decide

/-- C15 (amended). For every vector of length `N ≥ 2`, `bubbleSort` with `n = N` makes `k`
passes with `1 ≤ k ≤ N - 1` (it does not return within `k - 1` passes and returns within `k`),
and the step count it reports is at most `(N - 1) ^ 2`. A strictly decreasing vector takes
exactly `N - 1` passes and is reported with the `int` value of `(N - 1) ^ 2`, which is
`(N - 1) ^ 2` itself when `N ≤ 46341`. -/
theorem bubbleSort_pass_bound (S : List Int) (hN : 2 ≤ S.length) :
    ∃ k r, 1 ≤ k ∧ k ≤ S.length - 1 ∧
      bubbleSort (k - 1) S S.length = Run.diverge ∧
      (∀ fuel, k ≤ fuel → bubbleSort fuel S S.length = Run.ret r) ∧
      r.num_its ≤ (((S.length - 1) * (S.length - 1) : Nat) : Int) ∧
      (List.Sorted (· > ·) S → k = S.length - 1 ∧
        r.num_its = wrapInt32 (((S.length - 1) * (S.length - 1) : Nat) : Int) ∧
        (S.length ≤ 46341 →
          r.num_its = (((S.length - 1) * (S.length - 1) : Nat) : Int))) := by
  obtain ⟨k, hk1, hk2, hs, hdiv, hret⟩ := bubbleSort_run S
  have hk3 : k ≤ S.length - 1 := by omega
  have hsq : k * (S.length - 1) ≤ (S.length - 1) * (S.length - 1) :=
    Nat.mul_le_mul_right _ hk3
  refine ⟨k, _, hk1, hk3, hdiv, hret, ?_, ?_⟩
  · show wrapInt32 _ ≤ _
    refine le_trans (wrapInt32_le_self (by omega)) ?_
    exact_mod_cast hsq
  · intro hd
    have hk : k = S.length - 1 := by
      by_contra hne
      exact bubble_iterate_decreasing_unsorted S hd k (by omega) hs
    subst hk
    refine ⟨rfl, rfl, fun hmax => ?_⟩
    have hsq' : (S.length - 1) * (S.length - 1) ≤ 46340 * 46340 :=
      Nat.mul_le_mul (by omega) (by omega)
    exact wrapInt32_eq_self (by omega) (by omega)

theorem bubbleSort_pass_bound_witness :
    2 ≤ ([5, 4, 3, 2, 1] : List Int).length ∧
    List.Sorted (· > ·) ([5, 4, 3, 2, 1] : List Int) ∧
    ([5, 4, 3, 2, 1] : List Int).length ≤ 46341 ∧
    ∃ k r, k = 4 ∧ bubbleSort 3 [5, 4, 3, 2, 1] 5 = Run.diverge ∧
      bubbleSort 4 [5, 4, 3, 2, 1] ([5, 4, 3, 2, 1] : List Int).length = Run.ret r ∧
      r.num_its = 16 := by
  refine ⟨by decide, by decide, by decide, ?_⟩
  obtain ⟨k, r, _, _, _, hret, _, hdec⟩ := bubbleSort_pass_bound [5, 4, 3, 2, 1] (by decide)
  obtain ⟨hk, _, hexact⟩ := hdec (by decide)
  exact ⟨k, r, hk, by decide, hret 4 (by rw [hk]; decide), hexact (by decide)⟩

/-- C16. On a vector already in non-decreasing order, of length `N ≥ 1` (with `n = N` an
`int`, so `N ≤ 2147483647`), `bubbleSort` makes exactly one pass: it returns the vector as one
pass leaves it, unchanged, with `N - 1` steps reported. More generally, from any state of the
loop, a pass in which no exchange occurs (no two neighbours are out of order, equivalently the
pass leaves the vector as it was) is the last pass: the loop returns right after it. -/
theorem bubbleSort_sorted_one_pass (S : List Int) (hN : 1 ≤ S.length)
    (hint : S.length ≤ 2147483647) (hs : List.Sorted (· ≤ ·) S) :
    (∀ fuel, 1 ≤ fuel →
      bubbleSort fuel S S.length = Run.ret ⟨S, ((S.length - 1 : Nat) : Int)⟩) ∧
    bubbleSort 0 S S.length = Run.diverge ∧
    bubblePasses S.length 1 S 0 = some (S, ((S.length - 1 : Nat) : Int)) ∧
    (∀ (vals : List Int) (c : Int) (fuel : Nat),
      (∀ i a b, vals[i]? = some a → vals[i + 1]? = some b → ¬ a > b) →
      ∃ c', bubblePass vals vals.length c = some (vals, c') ∧
        bubbleLoop vals.length (fuel + 1) vals c = Run.ret ⟨vals, c'⟩) ∧
    (∀ (vals : List Int) (c c' : Int) (fuel : Nat),
      bubblePass vals vals.length c = some (vals, c') →
      (∀ i a b, vals[i]? = some a → vals[i + 1]? = some b → ¬ a > b) ∧
        bubbleLoop vals.length (fuel + 1) vals c = Run.ret ⟨vals, c'⟩) := by
  have hexact : wrapInt32 ((S.length - 1 : Nat) : Int) = ((S.length - 1 : Nat) : Int) :=
    wrapInt32_eq_self (by omega) (by omega)
  have h0 : (0 : Int) = wrapInt32 0 := by decide
  refine ⟨?_, rfl, ?_, ?_, ?_⟩
  · intro fuel hf
    obtain ⟨f, rfl⟩ : ∃ f, fuel = f + 1 := ⟨fuel - 1, by omega⟩
    rw [bubbleSort_sorted_run f S hs, hexact]
  · rw [bubblePasses_eq]
    conv_lhs => rw [h0]
    rw [incr_iterate]
    simp [bubble_sorted S hs, hexact]
  · intro vals c fuel hnb
    have hsv : List.Sorted (· ≤ ·) vals :=
      (sorted_iff_neighbours vals).mpr (fun i a b ha hb => not_lt.mp (hnb i a b ha hb))
    refine ⟨incr^[vals.length - 1] c, ?_, bubbleLoop_sorted fuel vals c hsv⟩
    rw [bubblePass_eq, bubble_sorted vals hsv]
  · intro vals c c' fuel hpass
    rw [bubblePass_eq] at hpass
    simp only [Option.some.injEq, Prod.mk.injEq] at hpass
    have hsv : List.Sorted (· ≤ ·) vals := (bubble_fixed_iff vals).mp hpass.1
    refine ⟨fun i a b ha hb => not_lt.mpr ((sorted_iff_neighbours vals).mp hsv i a b ha hb), ?_⟩
    rw [bubbleLoop_sorted fuel vals c hsv, hpass.2]

theorem bubbleSort_sorted_one_pass_witness :
    1 ≤ ([1, 2, 2, 5] : List Int).length ∧ ([1, 2, 2, 5] : List Int).length ≤ 2147483647 ∧
    List.Sorted (· ≤ ·) ([1, 2, 2, 5] : List Int) ∧
    bubbleSort 1 [1, 2, 2, 5] ([1, 2, 2, 5] : List Int).length = Run.ret ⟨[1, 2, 2, 5], 3⟩ :=
  ⟨by decide, by decide, by decide,
    (bubbleSort_sorted_one_pass [1, 2, 2, 5] (by decide) (by decide) (by decide)).1 1
      (by decide)⟩

/-! ## The outer loop of selectionSort, one iteration at a time -/

/-- Running `k + 1` outer iterations is running `k` of them and then one more. -/
theorem selectionFor_succ : ∀ (k i : Nat) (vals : List Int) (c : Int),
    selectionFor (k + 1) i vals c =
      match selectionFor k i vals c with
      | some (v, c') => selectionOuterBody v c' (i + k)
      | none => none := by
  intro k
  induction k with
  | zero =>
    intro i vals c
    simp only [selectionFor, Nat.add_zero]
    cases selectionOuterBody vals c i with
    | none => rfl
    | some p => rfl
  | succ k ih =>
    intro i vals c
    rw [selectionFor]
    cases h : selectionOuterBody vals c i with
    | none => simp [selectionFor, h]
    | some p =>
      obtain ⟨v, c'⟩ := p
      simp only
      rw [ih (i + 1) v c']
      conv_rhs => rw [selectionFor, h]
      simp only
      have : i + 1 + k = i + (k + 1) := by omega
      rw [this]

/-! ## No access out of range -/

theorem bubbleLoop_ne_ub : ∀ (fuel : Nat) (vals : List Int) (c : Int),
    bubbleLoop vals.length fuel vals c ≠ Run.ub := by
  intro fuel
  induction fuel with
  | zero => intro vals c h; simp [bubbleLoop] at h
  | succ f ih =>
    intro vals c
    rw [bubbleLoop_step]
    by_cases hs : is_sorted (bubble vals) = true
    · simp [hs]
    · have := ih (bubble vals) (incr^[vals.length - 1] c)
      rw [bubble_length] at this
      simpa [hs] using this

theorem bubbleBody_in_range (vals : List Int) (c : Int) (i : Nat) (hi : i + 1 < vals.length) :
    bubbleBody vals c i ≠ none := by
  have h1 : vals[i]? = some vals[i] := List.getElem?_eq_getElem (by omega)
  have h2 : vals[i + 1]? = some vals[i + 1] := List.getElem?_eq_getElem hi
  have hi' : i < vals.length := by omega
  unfold bubbleBody
  by_cases h : vals[i] > vals[i + 1]
  · simp [readAt, writeAt, h1, h2, h, hi, hi']
  · simp [readAt, writeAt, h1, h2, h]

/-! ## The loop of bubbleSort for any `n` -/

/-- Whatever `n` is, a run that returns has made some passes, at least one, and returns the
vector they leave, which the check found in non-decreasing order. -/
theorem bubbleLoop_ret_inv (n : Int) : ∀ (fuel : Nat) (vals : List Int) (c : Int) (r : Report),
    bubbleLoop n fuel vals c = Run.ret r →
    List.Sorted (· ≤ ·) r.vals ∧
      ∃ k, 1 ≤ k ∧ k ≤ fuel ∧ bubblePasses n k vals c = some (r.vals, r.num_its) := by
  intro fuel
  induction fuel with
  | zero => intro vals c r h; simp [bubbleLoop] at h
  | succ f ih =>
    intro vals c r h
    rw [bubbleLoop] at h
    cases hp : bubblePass vals n c with
    | none => simp [hp] at h
    | some p =>
      obtain ⟨v, c'⟩ := p
      simp only [hp] at h
      by_cases hs : is_sorted v = true
      · simp only [hs, if_true, Run.ret.injEq] at h
        subst h
        exact ⟨(is_sorted_iff v).mp hs, 1, le_refl _, by omega, by simp [bubblePasses, hp]⟩
      · simp only [hs, if_false, Bool.false_eq_true] at h
        obtain ⟨hsorted, k, hk1, hk2, hk⟩ := ih v c' r h
        exact ⟨hsorted, k + 1, by omega, by omega, by simp [bubblePasses, hp, hk]⟩

theorem bubblePass_short (c : Int) : bubblePass [1, 3, 2] 2 c = some ([1, 3, 2], incr c) := by
  simp [bubblePass, bubbleFor, bubbleBody, readAt]

theorem bubbleLoop_short_diverge : ∀ (fuel : Nat) (c : Int),
    bubbleLoop 2 fuel [1, 3, 2] c = Run.diverge := by
  intro fuel
  induction fuel with
  | zero => intro c; rfl
  | succ f ih =>
    intro c
    rw [bubbleLoop, bubblePass_short]
    have : is_sorted [1, 3, 2] = false := by decide
    simp [this, ih]

theorem bubblePasses_short : ∀ (k : Nat) (c : Int),
    bubblePasses 2 k [1, 3, 2] c = some ([1, 3, 2], incr^[k] c) := by
  intro k
  induction k with
  | zero => intro c; rfl
  | succ k ih =>
    intro c
    rw [bubblePasses, bubblePass_short]
    simp [ih]

/-- C17. Loop invariant of `selectionSort` with `n` the length `N` of the vector. For a position
`i` with `0 ≤ i ≤ N - 2`, let `v` be the vector after the iterations for the positions below
`i` and `v'` the vector after the iteration for `i`. Then the element of `v'` at `i` is a least
element of the places `i .. N - 1` of `v`; the places `0 .. i` of `v'` are in non-decreasing
order; every element of `v'` at a place `≤ i` is `≤` every element at a place `> i`; and the
places `0 .. i - 1` are the same in `v'` as in `v`. -/
theorem selectionSort_invariant (S : List Int) (i : Nat) (hi : i + 2 ≤ S.length) :
    ∃ v c v' c', selectionFor i 0 S 0 = some (v, c) ∧
      selectionOuterBody v c i = some (v', c') ∧
      selectionFor (i + 1) 0 S 0 = some (v', c') ∧
      v.length = S.length ∧ v'.length = S.length ∧
      (∃ m, v'[i]? = some m ∧ (∃ u, i ≤ u ∧ v[u]? = some m) ∧
        ∀ t x, i ≤ t → v[t]? = some x → m ≤ x) ∧
      (∀ a b x y, a < b → b ≤ i → v'[a]? = some x → v'[b]? = some y → x ≤ y) ∧
      (∀ a b x y, a ≤ i → i < b → v'[a]? = some x → v'[b]? = some y → x ≤ y) ∧
      (∀ t, t < i → v'[t]? = v[t]?) := by
  obtain ⟨v, s, hrun, hperm, hord, _, _⟩ :=
    selectionFor_spec i 0 S 0 (by omega) (fun a b x y _ h => by omega)
  have hlen : v.length = S.length := hperm.length_eq
  have hiv : i < v.length := by omega
  obtain ⟨v', m, hbody, hperm', hpre, hm, hmin, hfrom, _⟩ :=
    selectionOuterBody_effect v (incr^[s] 0) i hiv
  have hord' : Ordered (i + 1) v' := by
    simp only [Nat.zero_add] at hord
    exact Ordered.step hord hpre hm hmin hfrom
  refine ⟨v, _, v', _, hrun, hbody, ?_, hlen, by rw [hperm'.length_eq, hlen],
    ⟨m, hm, hfrom i m (le_refl _) hm, hmin⟩, ?_, ?_, hpre⟩
  · rw [selectionFor_succ, hrun]
    simpa using hbody
  · intro a b x y hab hbi hx hy
    exact hord' a b x y hab (by omega) hx hy
  · intro a b x y hai hib hx hy
    exact hord' a b x y (by omega) (by omega) hx hy

theorem selectionSort_invariant_witness :
    1 + 2 ≤ ([3, 1, 4, 5, 2] : List Int).length ∧
    selectionFor 1 0 [3, 1, 4, 5, 2] 0 = some ([1, 3, 4, 5, 2], 5) ∧
    selectionFor (1 + 1) 0 [3, 1, 4, 5, 2] 0 = some ([1, 2, 4, 5, 3], 9) ∧
    ∃ v c v' c', selectionFor 1 0 [3, 1, 4, 5, 2] 0 = some (v, c) ∧
      selectionFor (1 + 1) 0 [3, 1, 4, 5, 2] 0 = some (v', c') ∧
      ∀ t, t < 1 → v'[t]? = v[t]? := by
  refine ⟨by decide, by decide, by decide, ?_⟩
  obtain ⟨v, c, v', c', h1, _, h2, _, _, _, _, _, h3⟩ :=
    selectionSort_invariant [3, 1, 4, 5, 2] 1 (by decide)
  exact ⟨v, c, v', c', h1, h2, h3⟩

/-- C18. With `n` the length of the vector (any length, zero included) no element access of
`bubbleSort` or `selectionSort` is out of range: neither call ends in `Run.ub`, whatever the
budget of passes; one step of the inner loop of `bubbleSort` at an index `i` with
`i + 1 < size` reads and writes in range, and so do a whole pass and an outer iteration of
`selectionSort` at an index `i < size`. -/
theorem accesses_in_range (S : List Int) :
    (∀ fuel, bubbleSort fuel S S.length ≠ Run.ub) ∧
    selectionSort S S.length ≠ Run.ub ∧
    (∀ (vals : List Int) (c : Int) (i : Nat), i + 1 < vals.length →
      bubbleBody vals c i ≠ none) ∧
    (∀ (vals : List Int) (c : Int), bubblePass vals vals.length c ≠ none) ∧
    (∀ (vals : List Int) (c : Int) (i : Nat), i < vals.length →
      selectionOuterBody vals c i ≠ none) := by
  refine ⟨fun fuel => bubbleLoop_ne_ub fuel S 0, ?_, bubbleBody_in_range, ?_, ?_⟩
  · obtain ⟨v, s, hrun, _⟩ := selectionSort_run S
    rw [hrun]
    exact fun h => by cases h
  · intro vals c
    rw [bubblePass_eq]
    exact fun h => by cases h
  · intro vals c i hi
    obtain ⟨v, m, hrun, _⟩ := selectionOuterBody_effect vals c i hi
    rw [hrun]
    exact fun h => by cases h

theorem accesses_in_range_witness :
    (∀ fuel, bubbleSort fuel [3, 1, 2] ([3, 1, 2] : List Int).length ≠ Run.ub) ∧
    bubbleBody [3, 1, 2] 0 1 ≠ none ∧ selectionOuterBody [3, 1, 2] 0 2 ≠ none :=
  ⟨(accesses_in_range [3, 1, 2]).1,
    (accesses_in_range [3, 1, 2]).2.2.1 [3, 1, 2] 0 1 (by decide),
    (accesses_in_range [3, 1, 2]).2.2.2.2 [3, 1, 2] 0 2 (by decide)⟩

/-- C19. `bubbleSort` passes over the first `n` elements but checks the whole vector. On the
vector `[1, 3, 2]` with `n = 2` it never returns: every pass leaves the vector as it is, it is
not in non-decreasing order, and every budget of passes runs out. Whatever `n` is, a call that
returns has made at least one pass and returns the vector its passes leave, in non-decreasing
order as a whole; and with `n` the length of the vector the call does return. -/
theorem bubbleSort_short_pass_diverges :
    (∀ fuel, bubbleSort fuel [1, 3, 2] 2 = Run.diverge) ∧
    (∀ k, ∃ c, bubblePasses 2 k [1, 3, 2] 0 = some ([1, 3, 2], c)) ∧
    ¬ List.Sorted (· ≤ ·) ([1, 3, 2] : List Int) ∧
    (∀ (fuel : Nat) (S : List Int) (n : Int) (r : Report), bubbleSort fuel S n = Run.ret r →
      List.Sorted (· ≤ ·) r.vals ∧
        ∃ k, 1 ≤ k ∧ k ≤ fuel ∧ bubblePasses n k S 0 = some (r.vals, r.num_its)) ∧
    (∀ (S : List Int) (fuel : Nat), max 1 (S.length - 1) ≤ fuel →
      ∃ r, bubbleSort fuel S S.length = Run.ret r) := by
  refine ⟨fun fuel => bubbleLoop_short_diverge fuel 0,
    fun k => ⟨_, bubblePasses_short k 0⟩, by decide,
    fun fuel S n r h => bubbleLoop_ret_inv n fuel S 0 r h, ?_⟩
  intro S fuel hfuel
  obtain ⟨k, _, hk2, _, _, hret⟩ := bubbleSort_run S
  exact ⟨_, hret fuel (by omega)⟩

theorem bubbleSort_short_pass_diverges_witness :
    bubbleSort 1000 [1, 3, 2] 2 = Run.diverge ∧
    (bubbleSort 2 [1, 3, 2] 3 = Run.ret ⟨[1, 2, 3], 4⟩ →
      List.Sorted (· ≤ ·) ([1, 2, 3] : List Int)) :=
  ⟨bubbleSort_short_pass_diverges.1 1000,
    fun h => (bubbleSort_short_pass_diverges.2.2.2.1 2 [1, 3, 2] 3 ⟨[1, 2, 3], 4⟩ h).1⟩

/-- C20. With `num_its` a 32-bit signed `int`, the value `selectionSort` reports on a vector of
length `N` (with `n = N`) is the exact step count `(N - 1) + N * (N - 1) / 2` if and only if
`N ≤ 65535`, and it is then non-negative. For `N = 65535` the count is
`2147450879 ≤ 2 ^ 31 - 1`; for `N = 65536` the exact count `2147516415` exceeds `2 ^ 31 - 1`. -/
theorem selectionSort_counter_exact_iff (S : List Int) :
    ∃ r, selectionSort S S.length = Run.ret r ∧
      (r.num_its = (((S.length - 1) + S.length * (S.length - 1) / 2 : Nat) : Int) ↔
        S.length ≤ 65535) ∧
      (S.length ≤ 65535 → 0 ≤ r.num_its) ∧
      (65535 - 1) + 65535 * (65535 - 1) / 2 = 2147450879 ∧ 2147450879 ≤ 2 ^ 31 - 1 ∧
      (65536 - 1) + 65536 * (65536 - 1) / 2 = 2147516415 ∧ 2 ^ 31 - 1 < 2147516415 := by
  obtain ⟨v, s, hrun, _, _, hs, _⟩ := selectionSort_run S
  have hs' := selection_count_closed _ s hs
  subst hs'
  have hexact : S.length ≤ 65535 →
      wrapInt32 (((S.length - 1) + S.length * (S.length - 1) / 2 : Nat) : Int) =
        (((S.length - 1) + S.length * (S.length - 1) / 2 : Nat) : Int) := by
    intro hN
    have h1 : S.length * (S.length - 1) ≤ 65535 * 65534 := Nat.mul_le_mul hN (by omega)
    have h2 : S.length * (S.length - 1) / 2 ≤ 65535 * 65534 / 2 := Nat.div_le_div_right h1
    exact wrapInt32_eq_self (by omega) (by omega)
  refine ⟨_, hrun, ⟨fun heq => ?_, hexact⟩, fun hN => ?_, by decide, by decide, by decide,
    by decide⟩
  · by_contra hN
    have h1 : 65536 * 65535 ≤ S.length * (S.length - 1) :=
      Nat.mul_le_mul (by omega) (by omega)
    have h2 : 65536 * 65535 / 2 ≤ S.length * (S.length - 1) / 2 := Nat.div_le_div_right h1
    have h3 := (wrapInt32_range
      (((S.length - 1) + S.length * (S.length - 1) / 2 : Nat) : Int)).2
    simp only at heq
    rw [heq] at h3
    omega
  · show 0 ≤ wrapInt32 _
    rw [hexact hN]
    omega

theorem selectionSort_counter_exact_iff_witness :
    ([3, 1, 4, 5, 2] : List Int).length ≤ 65535 ∧
    ∃ r, selectionSort [3, 1, 4, 5, 2] ([3, 1, 4, 5, 2] : List Int).length = Run.ret r ∧
      r.num_its = 14 ∧ 0 ≤ r.num_its := by
  refine ⟨by decide, ?_⟩
  obtain ⟨r, hrun, hiff, hpos, _⟩ := selectionSort_counter_exact_iff [3, 1, 4, 5, 2]
  exact ⟨r, hrun, hiff.mpr (by decide), hpos (by decide)⟩

end SortFunc
